import Mathlib

/-!
Verification of the TradingView chart-session client
(`src/backend/external/tv_extractor.py`, with `src/tradingview_extract.py`
sharing the same codec functions).

The Python code is shallowly embedded: JSON values are the inductive `JVal`
(numbers restricted to integers; the claims under study do not involve
floating point), Python dicts are insertion-ordered association lists, and
exceptions are explicit (`Except`, or an error flag threaded through the
state).  `json.dumps` is modelled with its CPython defaults
(`ensure_ascii=True`, separators `", "` and `": "`), `json.loads` as a
strict recursive-descent parser of the same grammar (floating point
literals are out of scope and rejected).  The regex `~m~\d+~m~` is matched
over ASCII digits, which coincides with Python on the all-ASCII strings the
codec produces.
-/

namespace TV

/-- JSON value as produced by `json.loads` / consumed by `json.dumps`:
`null`, booleans, (integer) numbers, strings, arrays and objects.  Objects
are insertion-ordered lists of key/value pairs with unique keys, mirroring
Python dicts. -/
inductive JVal where
  | null
  | bool (b : Bool)
  | num (n : Int)
  | str (s : String)
  | arr (xs : List JVal)
  | obj (kvs : List (String × JVal))

/-- Size-based induction principle for the nested inductive `JVal`. -/
theorem jval_ind (P : JVal → Prop)
    (h1 : P .null) (h2 : ∀ b, P (.bool b)) (h3 : ∀ n, P (.num n)) (h4 : ∀ s, P (.str s))
    (h5 : ∀ xs, (∀ x ∈ xs, P x) → P (.arr xs))
    (h6 : ∀ kvs, (∀ kv ∈ kvs, P kv.2) → P (.obj kvs)) :
    ∀ v, P v := by
  have key : ∀ n (v : JVal), sizeOf v ≤ n → P v := by
    intro n
    induction n with
    | zero => intro v hv; cases v <;> simp at hv
    | succ n ih =>
      intro v hv
      match v with
      | .null => exact h1
      | .bool b => exact h2 b
      | .num m => exact h3 m
      | .str s => exact h4 s
      | .arr xs =>
        refine h5 xs (fun x hx => ih x ?_)
        have := List.sizeOf_lt_of_mem hx
        simp at hv
        omega
      | .obj kvs =>
        refine h6 kvs (fun kv hkv => ih kv.2 ?_)
        obtain ⟨a, b⟩ := kv
        have h := List.sizeOf_lt_of_mem hkv
        simp at hv h ⊢
        omega
  exact fun v => key (sizeOf v) v (Nat.le_refl _)

/-! ## Python dict primitives (insertion-ordered association lists) -/

/-- Python `d.get(k)` / `d[k]` lookup: first pair whose key matches. -/
def dget (eqk : κ → κ → Bool) (d : List (κ × α)) (k : κ) : Option α :=
  match d with
  | [] => none
  | (k', v) :: rest => if eqk k' k then some v else dget eqk rest k

/-- Python `d[k] = v`: replace the value in place if the key is present,
otherwise append the new pair (insertion order). -/
def dset (eqk : κ → κ → Bool) (d : List (κ × α)) (k : κ) (v : α) : List (κ × α) :=
  match d with
  | [] => [(k, v)]
  | (k', v') :: rest =>
    if eqk k' k then (k', v) :: rest else (k', v') :: dset eqk rest k v

/-- Python `d.pop(k, None)`: drop the pair with the given key, if any. -/
def dpop (eqk : κ → κ → Bool) (d : List (κ × α)) (k : κ) : List (κ × α) :=
  match d with
  | [] => []
  | (k', v') :: rest => if eqk k' k then rest else (k', v') :: dpop eqk rest k

/-- Python `k in d`. -/
def dmem (eqk : κ → κ → Bool) (d : List (κ × α)) (k : κ) : Bool :=
  match d with
  | [] => false
  | (k', _) :: rest => eqk k' k || dmem eqk rest k

/-- String-key equality used for JSON-object dicts. -/
def seq (a b : String) : Bool := a = b

/-- Lookup in a JSON object; `none` for every other value (callers only use
this where the Python code has already established the value is a dict). -/
def jget (v : JVal) (k : String) : Option JVal :=
  match v with
  | .obj kvs => dget seq kvs k
  | _ => none

/-! ## Decimal digits (Python `repr` of `int` / `len`) -/

/-- Character for a single decimal digit. -/
def digitChar (d : Nat) : Char := Char.ofNat (48 + d)

/-- ASCII decimal digit test (the regex `\d` over the all-ASCII strings the
codec handles). -/
def isDig (c : Char) : Bool := 48 ≤ c.toNat && c.toNat ≤ 57

/-- Big-endian decimal digits of a positive number (empty for 0). -/
def natDigitsAux (n : Nat) (acc : List Char) : List Char :=
  if h : n = 0 then acc
  else natDigitsAux (n / 10) (digitChar (n % 10) :: acc)
termination_by n
decreasing_by exact Nat.div_lt_self (Nat.pos_of_ne_zero h) (by omega)

/-- Decimal digits of `n` (empty for 0). -/
def natDigits (n : Nat) : List Char := natDigitsAux n []

/-- Decimal digits of `n`, with `0 ↦ "0"`:  Python's decimal formatting. -/
def natDigitsZ (n : Nat) : List Char := if n = 0 then ['0'] else natDigits n

/-- Python decimal formatting of a natural number. -/
def natRepr (n : Nat) : String := String.mk (natDigitsZ n)

/-- Python decimal formatting of an `int` (`-` sign then digits). -/
def intChars (n : Int) : List Char :=
  if n < 0 then '-' :: natDigitsZ n.natAbs else natDigitsZ n.toNat

/-! ## The Python `json.dumps` string escaper (`ensure_ascii=True`) -/

/-- Lowercase hex digit. -/
def hexChar (d : Nat) : Char := if d < 10 then Char.ofNat (48 + d) else Char.ofNat (87 + d)

/-- Four lowercase hex digits, as in Python's `\uXXXX` escapes. -/
def hex4 (n : Nat) : List Char :=
  [hexChar (n / 4096 % 16), hexChar (n / 256 % 16), hexChar (n / 16 % 16), hexChar (n % 16)]

/-- CPython `py_encode_basestring_ascii` for one character: `"` and `\`
escape, printable ASCII passes, the five short escapes, and `\uXXXX` (with a
surrogate pair above `0xFFFF`) for everything else. -/
def escChar (c : Char) : List Char :=
  if c = '"' then ['\\', '"']
  else if c = '\\' then ['\\', '\\']
  else if 32 ≤ c.toNat ∧ c.toNat ≤ 126 then [c]
  else if c = '\n' then ['\\', 'n']
  else if c = '\t' then ['\\', 't']
  else if c = '\r' then ['\\', 'r']
  else if c.toNat = 8 then ['\\', 'b']
  else if c.toNat = 12 then ['\\', 'f']
  else if c.toNat < 65536 then '\\' :: 'u' :: hex4 c.toNat
  else
    '\\' :: 'u' :: hex4 (55296 + (c.toNat - 65536) / 1024) ++
      '\\' :: 'u' :: hex4 (56320 + (c.toNat - 65536) % 1024)

/-- Concatenated image of a list under a list-valued function. -/
def cmap (f : α → List β) : List α → List β
  | [] => []
  | a :: as => f a ++ cmap f as

/-- JSON string literal body plus delimiting quotes. -/
def escString (s : String) : List Char := '"' :: cmap escChar s.data ++ ['"']

/-! ## `json.dumps` with CPython defaults (separators `", "` / `": "`) -/

mutual

def dumpVal : JVal → List Char
  | .num n => intChars n
  | .str s => escString s
  | .null => 'n' :: ['u', 'l', 'l']
  | .bool true => 't' :: ['r', 'u', 'e']
  | .bool false => 'f' :: ['a', 'l', 's', 'e']
  | .arr xs => '[' :: dumpElems xs ++ [']']
  | .obj kvs => '\x7b' :: dumpMems kvs ++ ['\x7d']

def dumpElems : List JVal → List Char
  | [] => []
  | [x] => dumpVal x
  | x :: y :: rest => dumpVal x ++ ',' :: ' ' :: dumpElems (y :: rest)

def dumpMems : List (String × JVal) → List Char
  | [] => []
  | [(k, v)] => escString k ++ ':' :: ' ' :: dumpVal v
  | (k, v) :: m :: rest =>
    escString k ++ ':' :: ' ' :: dumpVal v ++ ',' :: ' ' :: dumpMems (m :: rest)

end

/-- Python `json.dumps` (default options). -/
def dumps (v : JVal) : String := String.mk (dumpVal v)

/-! ## The frame codec (source: `prepend_header`, `construct_message`) -/

/-- Python `prepend_header(st)`: returns `f"~m~{len(st)}~m~{st}"`.  Note that
Python `len` counts characters (code points), not bytes. -/
def prepend_header (st : String) : String :=
  "~m~" ++ natRepr st.length ++ "~m~" ++ st

/-- Python `construct_message(m, p)`:
`prepend_header(json.dumps({"m": m, "p": p}))`. -/
def construct_message (m : String) (p : List JVal) : String :=
  prepend_header (dumps (.obj [("m", .str m), ("p", .arr p)]))

/-! ## UTF-8 byte length (the measure the spec states for the prefix) -/

/-- Number of bytes of the UTF-8 encoding of one character. -/
def csize (c : Char) : Nat :=
  if c.toNat < 128 then 1
  else if c.toNat < 2048 then 2
  else if c.toNat < 65536 then 3
  else 4

/-- UTF-8 byte length of a string. -/
def utf8Len (s : String) : Nat := (s.data.map csize).sum

/-! ## ASCII-ness of `json.dumps` output -/

theorem toNat_ofNat_valid {n : Nat} (h2 : n.isValidChar) : (Char.ofNat n).toNat = n := by
  rw [Char.ofNat, dif_pos h2]
  simp [Char.ofNatAux, Char.toNat, UInt32.toNat, BitVec.toNat_ofNatLt]

theorem digitChar_toNat {d : Nat} (h : d ≤ 9) : (digitChar d).toNat = 48 + d := by
  rw [digitChar, toNat_ofNat_valid (Or.inl (by omega))]

theorem hexChar_toNat {d : Nat} (h : d ≤ 15) : (hexChar d).toNat = if d < 10 then 48 + d else 87 + d := by
  rw [hexChar]
  split
  · rw [toNat_ofNat_valid (Or.inl (by omega))]
  · rw [toNat_ofNat_valid (Or.inl (by omega))]

theorem hexChar_ascii {d : Nat} (h : d ≤ 15) : (hexChar d).toNat < 128 := by
  rw [hexChar_toNat h]; split <;> omega

theorem hex4_ascii (n : Nat) : ∀ c ∈ hex4 n, c.toNat < 128 := by
  intro c hc
  simp [hex4] at hc
  rcases hc with h | h | h | h <;>
    { subst h; exact hexChar_ascii (by omega) }

theorem natDigitsAux_eq (n : Nat) (acc : List Char) :
    natDigitsAux n acc = natDigits n ++ acc := by
  induction n using Nat.strong_induction_on generalizing acc with
  | _ n ih =>
    by_cases h : n = 0
    · subst h; simp [natDigits, natDigitsAux]
    · have h10 : n / 10 < n := Nat.div_lt_self (Nat.pos_of_ne_zero h) (by omega)
      have lhs : natDigitsAux n acc = natDigits (n / 10) ++ digitChar (n % 10) :: acc := by
        rw [natDigitsAux, dif_neg h, ih _ h10]
      have rhs : natDigits n = natDigits (n / 10) ++ digitChar (n % 10) :: [] := by
        rw [natDigits, natDigitsAux, dif_neg h, ih _ h10]
      rw [lhs, rhs]
      simp

theorem natDigits_cons (n : Nat) (h : n ≠ 0) :
    natDigits n = natDigits (n / 10) ++ [digitChar (n % 10)] := by
  conv_lhs => rw [natDigits, natDigitsAux, dif_neg h, natDigitsAux_eq]

theorem natDigits_digits : ∀ n, ∀ c ∈ natDigits n, isDig c = true := by
  intro n
  induction n using Nat.strong_induction_on with
  | _ n ih =>
    intro c hc
    by_cases h : n = 0
    · subst h; simp [natDigits, natDigitsAux] at hc
    · rw [natDigits_cons n h] at hc
      rcases List.mem_append.mp hc with h1 | h1
      · exact ih (n / 10) (Nat.div_lt_self (Nat.pos_of_ne_zero h) (by omega)) c h1
      · have := List.mem_singleton.mp h1
        subst this
        have hlt : n % 10 ≤ 9 := Nat.le_of_lt_succ (Nat.mod_lt n (by omega))
        simp [isDig, digitChar_toNat hlt]
        omega

theorem isDig_ascii {c : Char} (h : isDig c = true) : c.toNat < 128 := by
  simp [isDig] at h
  omega

theorem natDigitsZ_digits (n : Nat) : ∀ c ∈ natDigitsZ n, isDig c = true := by
  intro c hc
  rw [natDigitsZ] at hc
  split at hc
  · simp at hc; subst hc; decide
  · exact natDigits_digits n c hc

theorem escChar_ascii (c : Char) : ∀ c' ∈ escChar c, c'.toNat < 128 := by
  intro c' hc'
  rw [escChar] at hc'
  repeat' split at hc'
  all_goals simp only [List.mem_cons, List.mem_append, List.not_mem_nil, or_false,
    List.mem_singleton] at hc'
  all_goals try casesm* _ ∨ _
  all_goals try subst_vars
  all_goals first
    | decide
    | omega
    | (exact hex4_ascii _ _ (by assumption))

theorem cmap_ascii {f : Char → List Char} (h : ∀ a, ∀ c ∈ f a, c.toNat < 128) :
    ∀ cs : List Char, ∀ c ∈ cmap f cs, c.toNat < 128 := by
  intro cs
  induction cs with
  | nil => intro c hc; simp [cmap] at hc
  | cons a as ih =>
    intro c hc
    rw [cmap] at hc
    rcases List.mem_append.mp hc with h1 | h1
    · exact h a c h1
    · exact ih c h1

theorem escString_ascii (s : String) : ∀ c ∈ escString s, c.toNat < 128 := by
  intro c hc
  rw [escString] at hc
  rcases List.mem_append.mp hc with h | h
  · rcases List.mem_cons.mp h with h1 | h1
    · subst h1; decide
    · exact cmap_ascii escChar_ascii s.data c h1
  · have := List.mem_singleton.mp h; subst this; decide

theorem intChars_ascii (n : Int) : ∀ c ∈ intChars n, c.toNat < 128 := by
  intro c hc
  rw [intChars] at hc
  split at hc
  · rcases List.mem_cons.mp hc with h | h
    · subst h; decide
    · exact isDig_ascii (natDigitsZ_digits _ c h)
  · exact isDig_ascii (natDigitsZ_digits _ c hc)

theorem dumpElems_ascii (xs : List JVal) (ih : ∀ x ∈ xs, ∀ c ∈ dumpVal x, c.toNat < 128) :
    ∀ c ∈ dumpElems xs, c.toNat < 128 := by
  induction xs with
  | nil => intro c hc; simp [dumpElems] at hc
  | cons x rest ihl =>
    intro c hc
    cases rest with
    | nil => exact ih x (by simp) c (by simpa [dumpElems] using hc)
    | cons y t =>
      rw [dumpElems] at hc
      rcases List.mem_append.mp hc with h | h
      · exact ih x (by simp) c h
      · rcases List.mem_cons.mp h with h1 | h1
        · subst h1; decide
        · rcases List.mem_cons.mp h1 with h2 | h2
          · subst h2; decide
          · exact ihl (fun z hz => ih z (by simp [hz])) c h2

theorem dumpMems_ascii (kvs : List (String × JVal))
    (ih : ∀ kv ∈ kvs, ∀ c ∈ dumpVal kv.2, c.toNat < 128) :
    ∀ c ∈ dumpMems kvs, c.toNat < 128 := by
  induction kvs with
  | nil => intro c hc; simp [dumpMems] at hc
  | cons kv rest ihl =>
    obtain ⟨k, v⟩ := kv
    intro c hc
    cases rest with
    | nil =>
      rw [dumpMems] at hc
      rcases List.mem_append.mp hc with h | h
      · exact escString_ascii k c h
      · rcases List.mem_cons.mp h with h1 | h1
        · subst h1; decide
        · rcases List.mem_cons.mp h1 with h2 | h2
          · subst h2; decide
          · exact ih (k, v) (by simp) c h2
    | cons m t =>
      rw [dumpMems] at hc
      rcases List.mem_append.mp hc with h | h
      · rcases List.mem_append.mp h with h1 | h1
        · exact escString_ascii k c h1
        · rcases List.mem_cons.mp h1 with h2 | h2
          · subst h2; decide
          · rcases List.mem_cons.mp h2 with h3 | h3
            · subst h3; decide
            · exact ih (k, v) (by simp) c h3
      · rcases List.mem_cons.mp h with h1 | h1
        · subst h1; decide
        · rcases List.mem_cons.mp h1 with h2 | h2
          · subst h2; decide
          · exact ihl (fun z hz => ih z (by simp [hz])) c h2

theorem dumpVal_ascii : ∀ v, ∀ c ∈ dumpVal v, c.toNat < 128 := by
  intro v
  induction v using jval_ind with
  | h1 =>
    intro c hc
    simp only [dumpVal, List.mem_cons, List.not_mem_nil, or_false] at hc
    rcases hc with h | h | h | h <;> subst h <;> decide
  | h2 b =>
    intro c hc
    cases b <;> simp only [dumpVal, List.mem_cons, List.not_mem_nil, or_false] at hc <;>
      casesm* _ ∨ _ <;> subst_vars <;> decide
  | h3 n => intro c hc; exact intChars_ascii n c (by simpa [dumpVal] using hc)
  | h4 s => intro c hc; exact escString_ascii s c (by simpa [dumpVal] using hc)
  | h5 xs ih =>
    intro c hc
    rw [dumpVal] at hc
    rcases List.mem_append.mp hc with h | h
    · rcases List.mem_cons.mp h with h1 | h1
      · subst h1; decide
      · exact dumpElems_ascii xs ih c h1
    · have := List.mem_singleton.mp h; subst this; decide
  | h6 kvs ih =>
    intro c hc
    rw [dumpVal] at hc
    rcases List.mem_append.mp hc with h | h
    · rcases List.mem_cons.mp h with h1 | h1
      · subst h1; decide
      · exact dumpMems_ascii kvs ih c h1
    · have := List.mem_singleton.mp h; subst this; decide

theorem ascii_length (cs : List Char) (h : ∀ c ∈ cs, c.toNat < 128) :
    cs.length = (cs.map csize).sum := by
  induction cs with
  | nil => simp
  | cons c rest ih =>
    have hc : csize c = 1 := by rw [csize, if_pos (h c (by simp))]
    simp only [List.length_cons, List.map_cons, List.sum_cons, hc,
      ih (fun c' hc' => h c' (by simp [hc']))]
    omega

theorem length_eq_utf8Len_of_ascii (s : String) (h : ∀ c ∈ s.data, c.toNat < 128) :
    s.length = utf8Len s := by
  rw [utf8Len]
  exact ascii_length s.data h

/-- C1.  Every frame the codec emits for a logical message
`\x7b"m": method, "p": params\x7d` has the form `~m~L~m~P` where `L` is the
UTF-8 byte length of the payload `P` — for every method string and params
array, including ones whose JSON serialization involves non-ASCII
characters (the serializer `\u`-escapes them, so the payload is ASCII and
Python's character count coincides with the byte count). -/
theorem frame_length_equals_utf8_byte_length (m : String) (p : List JVal) :
    construct_message m p =
      "~m~" ++ natRepr (utf8Len (dumps (.obj [("m", .str m), ("p", .arr p)]))) ++ "~m~" ++
        dumps (.obj [("m", .str m), ("p", .arr p)]) := by
  rw [construct_message, prepend_header,
    length_eq_utf8Len_of_ascii (dumps (.obj [("m", .str m), ("p", .arr p)]))
      (fun c hc => dumpVal_ascii _ c hc)]

/-! ## `json.loads` (strict mode, integer numbers only) -/

/-- JSON whitespace (the characters Python's decoder skips). -/
def isWs (c : Char) : Bool := c = ' ' || c = '\t' || c = '\n' || c = '\r'

/-- Skip leading JSON whitespace. -/
def skipWs : List Char → List Char
  | [] => []
  | c :: cs => if isWs c then skipWs cs else c :: cs

/-- Maximal leading run of ASCII digits, plus the remainder. -/
def takeDigits : List Char → List Char × List Char
  | [] => ([], [])
  | c :: cs =>
    if isDig c then (c :: (takeDigits cs).1, (takeDigits cs).2) else ([], c :: cs)

/-- Numeric value of one ASCII digit. -/
def charVal (c : Char) : Nat := c.toNat - 48

/-- Decimal value of a digit run, with accumulator. -/
def digitsVal (a : Nat) (ds : List Char) : Nat := ds.foldl (fun x c => x * 10 + charVal c) a

/-- A number literal must not be continued by a digit, a fraction or an
exponent; fraction/exponent would be a float, which the model rejects. -/
def numStop (cs : List Char) : Bool :=
  match cs with
  | [] => true
  | c :: _ => !(isDig c || c = '.' || c = 'e' || c = 'E')

/-- Parse an unsigned JSON integer literal (no leading zeros). -/
def pNum (cs : List Char) : Option (Nat × List Char) :=
  match cs with
  | [] => none
  | c :: rest =>
    if c = '0' then if numStop rest then some (0, rest) else none
    else if isDig c then
      if numStop (takeDigits rest).2 then
        some (digitsVal (charVal c) (takeDigits rest).1, (takeDigits rest).2)
      else none
    else none

/-- Value of one hex digit character, if any. -/
def hexVal (c : Char) : Option Nat :=
  if 48 ≤ c.toNat ∧ c.toNat ≤ 57 then some (c.toNat - 48)
  else if 97 ≤ c.toNat ∧ c.toNat ≤ 102 then some (c.toNat - 87)
  else if 65 ≤ c.toNat ∧ c.toNat ≤ 70 then some (c.toNat - 55)
  else none

/-- Parse four hex digits into their value. -/
def pHex4 : List Char → Option (Nat × List Char)
  | h1 :: h2 :: h3 :: h4 :: cs =>
    match hexVal h1, hexVal h2, hexVal h3, hexVal h4 with
    | some a, some b, some c, some d => some (((a * 16 + b) * 16 + c) * 16 + d, cs)
    | _, _, _, _ => none
  | _ => none

/-- Continuation after a high surrogate `\uXXXX`: a low surrogate escape
must follow and the two combine. -/
def pLowSur (n : Nat) : List Char → Option (Char × List Char)
  | b1 :: b2 :: cs4 =>
    if b1 = '\\' ∧ b2 = 'u' then
      match pHex4 cs4 with
      | none => none
      | some (m, cs5) =>
        if 56320 ≤ m ∧ m < 57344 then
          some (Char.ofNat (65536 + (n - 55296) * 1024 + (m - 56320)), cs5)
        else none
    else none
  | _ => none

/-- Unicode escape after `\u`. -/
def pEscU (cs2 : List Char) : Option (Char × List Char) :=
  match pHex4 cs2 with
  | none => none
  | some (n, cs3) =>
    if n < 55296 ∨ 57344 ≤ n then some (Char.ofNat n, cs3)
    else if n < 56320 then pLowSur n cs3
    else none

/-- Parse one escape sequence after a backslash.  Mirrors CPython
`py_scanstring` in strict mode, except that a lone surrogate escape is
rejected instead of kept (Lean characters cannot carry lone surrogates). -/
def pEsc : List Char → Option (Char × List Char)
  | [] => none
  | e :: cs2 =>
    if e = '"' then some ('"', cs2)
    else if e = '\\' then some ('\\', cs2)
    else if e = '/' then some ('/', cs2)
    else if e = 'b' then some (Char.ofNat 8, cs2)
    else if e = 'f' then some (Char.ofNat 12, cs2)
    else if e = 'n' then some ('\n', cs2)
    else if e = 'r' then some ('\r', cs2)
    else if e = 't' then some ('\t', cs2)
    else if e = 'u' then pEscU cs2
    else none

theorem pHex4_length : ∀ {cs : List Char} {p : Nat × List Char},
    pHex4 cs = some p → p.2.length + 4 = cs.length := by
  intro cs p h
  match cs with
  | [] => simp [pHex4] at h
  | [a] => simp [pHex4] at h
  | [a, b] => simp [pHex4] at h
  | [a, b, c] => simp [pHex4] at h
  | a :: b :: c :: d :: rest =>
    rw [pHex4] at h
    split at h
    · cases h; simp
    · simp at h

set_option maxRecDepth 2048 in
set_option maxRecDepth 2048 in
theorem pLowSur_length {n : Nat} : ∀ {cs : List Char} {p : Char × List Char},
    pLowSur n cs = some p → p.2.length < cs.length := by
  intro cs p h
  match cs with
  | [] => simp [pLowSur] at h
  | [b1] => simp [pLowSur] at h
  | b1 :: b2 :: cs4 =>
    rw [pLowSur] at h
    by_cases cb : b1 = '\\' ∧ b2 = 'u'
    · rw [if_pos cb] at h
      split at h
      · simp at h
      · rename_i m cs5 hph2
        by_cases c3 : 56320 ≤ m ∧ m < 57344
        · rw [if_pos c3] at h
          injection h with h2
          subst h2
          have l2 : cs5.length + 4 = cs4.length := pHex4_length hph2
          show cs5.length < (b1 :: b2 :: cs4).length
          simp only [List.length_cons]
          omega
        · rw [if_neg c3] at h
          simp at h
    · rw [if_neg cb] at h; simp at h

set_option maxRecDepth 2048 in
theorem pEscU_length : ∀ {cs : List Char} {p : Char × List Char},
    pEscU cs = some p → p.2.length < cs.length := by
  intro cs p h
  rw [pEscU] at h
  split at h
  · simp at h
  · rename_i n cs3 hph
    by_cases c1 : n < 55296 ∨ 57344 ≤ n
    · rw [if_pos c1] at h
      injection h with h2
      subst h2
      have l1 : cs3.length + 4 = cs.length := pHex4_length hph
      show cs3.length < cs.length
      omega
    · rw [if_neg c1] at h
      by_cases c2 : n < 56320
      · rw [if_pos c2] at h
        have l1 : cs3.length + 4 = cs.length := pHex4_length hph
        have l2 := pLowSur_length h
        omega
      · rw [if_neg c2] at h
        simp at h

theorem pEsc_length : ∀ {cs : List Char} {p : Char × List Char},
    pEsc cs = some p → p.2.length < cs.length := by
  intro cs p h
  match cs with
  | [] => simp [pEsc] at h
  | e :: cs2 =>
    rw [pEsc] at h
    by_cases e1 : e = '"'
    · rw [if_pos e1] at h; cases h; simp
    rw [if_neg e1] at h
    by_cases e2 : e = '\\'
    · rw [if_pos e2] at h; cases h; simp
    rw [if_neg e2] at h
    by_cases e3 : e = '/'
    · rw [if_pos e3] at h; cases h; simp
    rw [if_neg e3] at h
    by_cases e4 : e = 'b'
    · rw [if_pos e4] at h; cases h; simp
    rw [if_neg e4] at h
    by_cases e5 : e = 'f'
    · rw [if_pos e5] at h; cases h; simp
    rw [if_neg e5] at h
    by_cases e6 : e = 'n'
    · rw [if_pos e6] at h; cases h; simp
    rw [if_neg e6] at h
    by_cases e7 : e = 'r'
    · rw [if_pos e7] at h; cases h; simp
    rw [if_neg e7] at h
    by_cases e8 : e = 't'
    · rw [if_pos e8] at h; cases h; simp
    rw [if_neg e8] at h
    by_cases e9 : e = 'u'
    · rw [if_pos e9] at h
      have := pEscU_length h
      simp
      omega
    · rw [if_neg e9] at h; simp at h

/-- Parse the body of a JSON string literal after the opening quote, up to
and including the closing quote (strict mode: raw control characters are
rejected). -/
def pStrBody (cs : List Char) : Option (List Char × List Char) :=
  match cs with
  | [] => none
  | c :: cs1 =>
    if c = '"' then some ([], cs1)
    else if c = '\\' then
      match he : pEsc cs1 with
      | some (ch, cs2) => (pStrBody cs2).map (fun p => (ch :: p.1, p.2))
      | none => none
    else if c.toNat < 32 then none
    else (pStrBody cs1).map (fun p => (c :: p.1, p.2))
termination_by cs.length
decreasing_by
  · have hl := pEsc_length he
    simp at hl ⊢
    omega
  · simp

/-- Python `dict(pairs)`: first occurrence fixes the position, the last
occurrence fixes the value. -/
def dictify (pairs : List (String × JVal)) : List (String × JVal) :=
  pairs.foldl (fun acc kv => dset seq acc kv.1 kv.2) []

/-- Literal keyword continuation of three characters (for `null`/`true`). -/
def pKeyword (rest : List Char) (l1 l2 l3 : Char) (v : JVal) : Option (JVal × List Char) :=
  match rest with
  | a :: b :: c :: r => if a = l1 ∧ b = l2 ∧ c = l3 then some (v, r) else none
  | _ => none

/-- Literal keyword continuation of four characters (for `false`). -/
def pKeyword4 (rest : List Char) (l1 l2 l3 l4 : Char) (v : JVal) : Option (JVal × List Char) :=
  match rest with
  | a :: b :: c :: d :: r => if a = l1 ∧ b = l2 ∧ c = l3 ∧ d = l4 then some (v, r) else none
  | _ => none

mutual

/-- One JSON value (Python `_scan_once` at a whitespace-skipped position;
this model folds the whitespace skip into the parser as every CPython call
site pre-skips). -/
def pVal : Nat → List Char → Option (JVal × List Char)
  | 0, _ => none
  | fuel + 1, cs => pValGo fuel (skipWs cs)
termination_by fuel _ => (fuel, 5)

/-- Dispatch on the first significant character. -/
def pValGo (fuel : Nat) : List Char → Option (JVal × List Char)
  | [] => none
  | c :: rest =>
    if c = 'n' then pKeyword rest 'u' 'l' 'l' .null
    else if c = 't' then pKeyword rest 'r' 'u' 'e' (.bool true)
    else if c = 'f' then pKeyword4 rest 'a' 'l' 's' 'e' (.bool false)
    else if c = '"' then
      (pStrBody rest).map (fun p => (.str (String.mk p.1), p.2))
    else if c = '[' then pArrGo fuel (skipWs rest)
    else if c = '\x7b' then pObjGo fuel (skipWs rest)
    else if c = '-' then
      (pNum rest).map (fun p => (.num (-(p.1 : Int)), p.2))
    else if isDig c then
      (pNum (c :: rest)).map (fun p => (.num (p.1 : Int), p.2))
    else none
termination_by _ => (fuel, 2)

/-- Array contents after the opening bracket (whitespace already skipped). -/
def pArrGo (fuel : Nat) : List Char → Option (JVal × List Char)
  | [] => none
  | d :: ds =>
    if d = ']' then some (.arr [], ds)
    else (pElems fuel (d :: ds)).map (fun p => (.arr p.1, p.2))
termination_by _ => (fuel, 1)

/-- Object contents after the opening brace (whitespace already skipped). -/
def pObjGo (fuel : Nat) : List Char → Option (JVal × List Char)
  | [] => none
  | d :: ds =>
    if d = '\x7d' then some (.obj [], ds)
    else (pMems fuel (d :: ds)).map (fun p => (.obj (dictify p.1), p.2))
termination_by _ => (fuel, 1)

/-- Array elements after at least one value is known to follow. -/
def pElems : Nat → List Char → Option (List JVal × List Char)
  | 0, _ => none
  | fuel + 1, cs =>
    match pVal fuel cs with
    | none => none
    | some (v, r) => pElemsGo fuel v (skipWs r)
termination_by fuel _ => (fuel, 0)

/-- Separator dispatch after one array element. -/
def pElemsGo (fuel : Nat) (v : JVal) : List Char → Option (List JVal × List Char)
  | [] => none
  | d :: ds =>
    if d = ',' then (pElems fuel ds).map (fun p => (v :: p.1, p.2))
    else if d = ']' then some ([v], ds)
    else none
termination_by _ => (fuel, 1)

/-- Object members after at least one member is known to follow. -/
def pMems : Nat → List Char → Option (List (String × JVal) × List Char)
  | 0, _ => none
  | _ + 1, [] => none
  | fuel + 1, c :: cs1 =>
    if c = '"' then
      match pStrBody cs1 with
      | none => none
      | some (k, r1) => pMemsRest fuel k (skipWs r1)
    else none
termination_by fuel _ => (fuel, 0)

/-- After an object key: expect a colon and a value. -/
def pMemsRest (fuel : Nat) (k : List Char) : List Char → Option (List (String × JVal) × List Char)
  | [] => none
  | d :: ds =>
    if d = ':' then
      match pVal fuel ds with
      | none => none
      | some (v, r3) => pMemsKV fuel k v (skipWs r3)
    else none
termination_by _ => (fuel, 6)

/-- Separator dispatch after one object member. -/
def pMemsKV (fuel : Nat) (k : List Char) (v : JVal) :
    List Char → Option (List (String × JVal) × List Char)
  | [] => none
  | e :: es =>
    if e = ',' then (pMems fuel (skipWs es)).map (fun p => ((String.mk k, v) :: p.1, p.2))
    else if e = '\x7d' then some ([(String.mk k, v)], es)
    else none
termination_by _ => (fuel, 1)

end

/-! ## Round trip: `loads` recovers what `dumps` wrote -/

theorem char_ne_of_toNat {c d : Char} (h : c.toNat ≠ d.toNat) : c ≠ d :=
  fun he => h (congrArg Char.toNat he)

theorem natDigits_ne_nil {n : Nat} (h : n ≠ 0) : natDigits n ≠ [] := by
  rw [natDigits_cons n h]
  simp

theorem natDigits_head_ne_zero :
    ∀ n, ∀ c cs, natDigits n = c :: cs → c ≠ '0' := by
  intro n
  induction n using Nat.strong_induction_on with
  | _ n ih =>
    intro c cs hc
    by_cases h : n = 0
    · subst h; simp [natDigits, natDigitsAux] at hc
    · rw [natDigits_cons n h] at hc
      by_cases h10 : n / 10 = 0
      · rw [h10] at hc
        simp [natDigits, natDigitsAux] at hc
        have h9 : 1 ≤ n % 10 := by
          have := Nat.div_add_mod n 10
          omega
        intro he
        have h48 : c.toNat = 48 := by rw [he]; decide
        rw [← hc.1, digitChar_toNat (by omega)] at h48
        omega
      · obtain ⟨d, ds, hds⟩ : ∃ d ds, natDigits (n / 10) = d :: ds := by
          cases hnd : natDigits (n / 10) with
          | nil => exact absurd hnd (natDigits_ne_nil h10)
          | cons d ds => exact ⟨d, ds, rfl⟩
        rw [hds] at hc
        simp at hc
        rw [← hc.1]
        exact ih (n / 10) (Nat.div_lt_self (Nat.pos_of_ne_zero h) (by omega)) d ds hds

theorem charVal_digitChar {d : Nat} (h : d ≤ 9) : charVal (digitChar d) = d := by
  rw [charVal, digitChar_toNat h]
  omega

theorem digitsVal_append (a : Nat) (ds1 ds2 : List Char) :
    digitsVal a (ds1 ++ ds2) = digitsVal (digitsVal a ds1) ds2 := by
  rw [digitsVal, digitsVal, digitsVal, List.foldl_append]

theorem natDigits_val :
    ∀ n a, digitsVal a (natDigits n) = a * 10 ^ (natDigits n).length + n := by
  intro n
  induction n using Nat.strong_induction_on with
  | _ n ih =>
    intro a
    by_cases h : n = 0
    · subst h; simp [natDigits, natDigitsAux, digitsVal]
    · rw [natDigits_cons n h, digitsVal_append,
        ih (n / 10) (Nat.div_lt_self (Nat.pos_of_ne_zero h) (by omega)) a]
      have hm : n % 10 ≤ 9 := Nat.le_of_lt_succ (Nat.mod_lt n (by omega))
      have hdm := Nat.div_add_mod n 10
      simp only [digitsVal, List.foldl_cons, List.foldl_nil, charVal_digitChar hm,
        List.length_append, List.length_cons, List.length_nil, Nat.zero_add, pow_succ]
      rw [← mul_assoc]
      omega

/-- Head character of the remainder is not a digit. -/
def noDigHead (cs : List Char) : Bool :=
  match cs with
  | [] => true
  | c :: _ => !isDig c

theorem takeDigits_append {ds rest : List Char}
    (hds : ∀ c ∈ ds, isDig c = true) (hrest : noDigHead rest = true) :
    takeDigits (ds ++ rest) = (ds, rest) := by
  induction ds with
  | nil =>
    cases rest with
    | nil => rfl
    | cons c cs =>
      simp [noDigHead] at hrest
      simp [takeDigits, hrest]
  | cons d ds ih =>
    have hd := hds d (by simp)
    have ih2 := ih (fun c hc => hds c (by simp [hc]))
    simp only [List.cons_append, takeDigits, hd, if_true, List.append_eq, ih2]

theorem pNum_round {n : Nat} {rest : List Char} (hrest : numStop rest = true) :
    pNum (natDigitsZ n ++ rest) = some (n, rest) := by
  have hnds : noDigHead rest = true := by
    cases rest with
    | nil => rfl
    | cons c cs =>
      simp [numStop] at hrest
      simp [noDigHead, hrest.1]
  by_cases h : n = 0
  · subst h
    simp only [natDigitsZ, if_pos rfl, List.cons_append, List.nil_append]
    simp [pNum, hrest]
  · rw [natDigitsZ, if_neg h]
    obtain ⟨c, cs, hc⟩ : ∃ c cs, natDigits n = c :: cs := by
      cases hnd : natDigits n with
      | nil => exact absurd hnd (natDigits_ne_nil h)
      | cons c cs => exact ⟨c, cs, rfl⟩
    have hcd : isDig c = true := natDigits_digits n c (by rw [hc]; simp)
    have hc0 : c ≠ '0' := natDigits_head_ne_zero n c cs hc
    rw [hc]
    simp only [List.cons_append]
    have htd : takeDigits (cs ++ rest) = (cs, rest) :=
      takeDigits_append (fun x hx => natDigits_digits n x (by rw [hc]; simp [hx])) hnds
    simp only [pNum, if_neg hc0, hcd, if_true, htd, if_pos hrest]
    have hv : digitsVal 0 (natDigits n) = n := by
      rw [natDigits_val n 0]; omega
    rw [hc] at hv
    have : digitsVal 0 (c :: cs) = digitsVal (charVal c) cs := by
      simp [digitsVal]
    rw [this] at hv
    rw [hv]

theorem hexVal_hexChar {d : Nat} (h : d ≤ 15) : hexVal (hexChar d) = some d := by
  by_cases h10 : d < 10
  · have ht : (hexChar d).toNat = 48 + d := by rw [hexChar_toNat h, if_pos h10]
    rw [hexVal, ht, if_pos (by omega)]
    congr 1
    omega
  · have ht : (hexChar d).toNat = 87 + d := by rw [hexChar_toNat h, if_neg h10]
    rw [hexVal, ht, if_neg (by omega), if_pos (by omega)]
    congr 1
    omega

theorem hexQuad (n : Nat) (h : n < 65536) :
    hexVal (hexChar (n / 4096 % 16)) = some (n / 4096 % 16) ∧
    hexVal (hexChar (n / 256 % 16)) = some (n / 256 % 16) ∧
    hexVal (hexChar (n / 16 % 16)) = some (n / 16 % 16) ∧
    hexVal (hexChar (n % 16)) = some (n % 16) ∧
    ((n / 4096 % 16 * 16 + n / 256 % 16) * 16 + n / 16 % 16) * 16 + n % 16 = n := by
  refine ⟨hexVal_hexChar (by omega), hexVal_hexChar (by omega),
    hexVal_hexChar (by omega), hexVal_hexChar (by omega), by omega⟩

theorem char_toNat_valid (c : Char) :
    c.toNat < 55296 ∨ (57343 < c.toNat ∧ c.toNat < 1114112) := c.valid

theorem pStrBody_nil : pStrBody [] = none := by rw [pStrBody]

theorem pStrBody_quote (cs : List Char) : pStrBody ('"' :: cs) = some ([], cs) := by
  rw [pStrBody]
  simp

theorem pStrBody_bs {cs : List Char} {ch : Char} {cs2 : List Char}
    (h : pEsc cs = some (ch, cs2)) :
    pStrBody ('\\' :: cs) = (pStrBody cs2).map (fun p => (ch :: p.1, p.2)) := by
  rw [pStrBody, if_neg (by decide), if_pos rfl]
  split
  next ch' cs2' he =>
    rw [h] at he
    injection he with h2
    cases h2
    rfl
  next he =>
    rw [h] at he
    exact Option.noConfusion he

theorem pStrBody_plain {c : Char} (h1 : c ≠ '"') (h2 : c ≠ '\\') (h3 : 32 ≤ c.toNat)
    (cs : List Char) :
    pStrBody (c :: cs) = (pStrBody cs).map (fun p => (c :: p.1, p.2)) := by
  rw [pStrBody, if_neg h1, if_neg h2, if_neg (by omega)]

theorem pEsc_u_bmp {h1 h2 h3 h4 : Char} {a b c d : Nat} {cs : List Char}
    (ea : hexVal h1 = some a) (eb : hexVal h2 = some b) (ec : hexVal h3 = some c)
    (ed : hexVal h4 = some d)
    (hN : ((a * 16 + b) * 16 + c) * 16 + d < 55296 ∨ 57344 ≤ ((a * 16 + b) * 16 + c) * 16 + d) :
    pEsc ('u' :: h1 :: h2 :: h3 :: h4 :: cs) =
      some (Char.ofNat (((a * 16 + b) * 16 + c) * 16 + d), cs) := by
  rw [pEsc, if_neg (by decide), if_neg (by decide), if_neg (by decide), if_neg (by decide),
    if_neg (by decide), if_neg (by decide), if_neg (by decide), if_neg (by decide), if_pos rfl,
    pEscU, pHex4, ea, eb, ec, ed]
  simp [hN]

theorem pEsc_u_sur {h1 h2 h3 h4 g1 g2 g3 g4 : Char} {a b c d a2 b2 c2 d2 : Nat} {cs : List Char}
    (ea : hexVal h1 = some a) (eb : hexVal h2 = some b) (ec : hexVal h3 = some c)
    (ed : hexVal h4 = some d)
    (fa : hexVal g1 = some a2) (fb : hexVal g2 = some b2) (fc : hexVal g3 = some c2)
    (fd : hexVal g4 = some d2)
    (hN : 55296 ≤ ((a * 16 + b) * 16 + c) * 16 + d ∧ ((a * 16 + b) * 16 + c) * 16 + d < 56320)
    (hM : 56320 ≤ ((a2 * 16 + b2) * 16 + c2) * 16 + d2 ∧
      ((a2 * 16 + b2) * 16 + c2) * 16 + d2 < 57344) :
    pEsc ('u' :: h1 :: h2 :: h3 :: h4 :: '\\' :: 'u' :: g1 :: g2 :: g3 :: g4 :: cs) =
      some (Char.ofNat (65536 + (((a * 16 + b) * 16 + c) * 16 + d - 55296) * 1024 +
        (((a2 * 16 + b2) * 16 + c2) * 16 + d2 - 56320)), cs) := by
  have hno : ¬(((a * 16 + b) * 16 + c) * 16 + d < 55296 ∨
      57344 ≤ ((a * 16 + b) * 16 + c) * 16 + d) := by omega
  have hlt : ((a * 16 + b) * 16 + c) * 16 + d < 56320 := by omega
  rw [pEsc, if_neg (by decide), if_neg (by decide), if_neg (by decide), if_neg (by decide),
    if_neg (by decide), if_neg (by decide), if_neg (by decide), if_neg (by decide), if_pos rfl,
    pEscU, pHex4, ea, eb, ec, ed]
  simp only [hno, hlt, if_false, if_true, ite_false, ite_true]
  rw [pLowSur, if_pos (show ('\\' : Char) = '\\' ∧ ('u' : Char) = 'u' from ⟨rfl, rfl⟩),
    pHex4, fa, fb, fc, fd]
  simp [hM]

theorem pStrBody_esc :
    ∀ cs rest, pStrBody (cmap escChar cs ++ '"' :: rest) = some (cs, rest) := by
  intro cs
  induction cs with
  | nil =>
    intro rest
    rw [cmap, List.nil_append, pStrBody_quote]
  | cons c cs ih =>
    intro rest
    have ihr := ih rest
    rw [cmap, List.append_assoc]
    generalize hT : cmap escChar cs ++ '"' :: rest = T at ihr ⊢
    by_cases h1 : c = '"'
    · subst h1
      show pStrBody ('\\' :: '"' :: T) = _
      rw [pStrBody_bs (show pEsc ('"' :: T) = some ('"', T) by rw [pEsc]; simp), ihr]
      rfl
    · by_cases h2 : c = '\\'
      · subst h2
        show pStrBody ('\\' :: '\\' :: T) = _
        rw [pStrBody_bs (show pEsc ('\\' :: T) = some ('\\', T) by rw [pEsc]; simp), ihr]
        rfl
      · by_cases h3 : 32 ≤ c.toNat ∧ c.toNat ≤ 126
        · rw [escChar, if_neg h1, if_neg h2, if_pos h3, List.cons_append, List.nil_append,
            pStrBody_plain h1 h2 h3.1, ihr]
          rfl
        · by_cases h4 : c = '\n'
          · subst h4
            show pStrBody ('\\' :: 'n' :: T) = _
            rw [pStrBody_bs (show pEsc ('n' :: T) = some ('\n', T) by rw [pEsc]; simp), ihr]
            rfl
          · by_cases h5 : c = '\t'
            · subst h5
              show pStrBody ('\\' :: 't' :: T) = _
              rw [pStrBody_bs (show pEsc ('t' :: T) = some ('\t', T) by rw [pEsc]; simp), ihr]
              rfl
            · by_cases h6 : c = '\r'
              · subst h6
                show pStrBody ('\\' :: 'r' :: T) = _
                rw [pStrBody_bs (show pEsc ('r' :: T) = some ('\r', T) by rw [pEsc]; simp), ihr]
                rfl
              · by_cases h7 : c.toNat = 8
                · rw [escChar, if_neg h1, if_neg h2, if_neg h3, if_neg h4, if_neg h5,
                    if_neg h6, if_pos h7, List.cons_append, List.cons_append, List.nil_append,
                    pStrBody_bs (show pEsc ('b' :: T) = some (Char.ofNat 8, T) by rw [pEsc]; simp),
                    ihr]
                  rw [← h7, Char.ofNat_toNat]
                  rfl
                · by_cases h8 : c.toNat = 12
                  · rw [escChar, if_neg h1, if_neg h2, if_neg h3, if_neg h4, if_neg h5,
                      if_neg h6, if_neg h7, if_pos h8, List.cons_append, List.cons_append,
                      List.nil_append,
                      pStrBody_bs
                        (show pEsc ('f' :: T) = some (Char.ofNat 12, T) by rw [pEsc]; simp),
                      ihr]
                    rw [← h8, Char.ofNat_toNat]
                    rfl
                  · by_cases h9 : c.toNat < 65536
                    · rw [escChar, if_neg h1, if_neg h2, if_neg h3, if_neg h4, if_neg h5,
                        if_neg h6, if_neg h7, if_neg h8, if_pos h9]
                      obtain ⟨qa, qb, qc, qd, qv⟩ := hexQuad c.toNat h9
                      have hval := char_toNat_valid c
                      rw [hex4]
                      rw [show ('\\' :: 'u' :: [hexChar (c.toNat / 4096 % 16),
                            hexChar (c.toNat / 256 % 16), hexChar (c.toNat / 16 % 16),
                            hexChar (c.toNat % 16)]) ++ T =
                          '\\' :: 'u' :: hexChar (c.toNat / 4096 % 16) ::
                            hexChar (c.toNat / 256 % 16) :: hexChar (c.toNat / 16 % 16) ::
                            hexChar (c.toNat % 16) :: T by simp]
                      rw [pStrBody_bs (pEsc_u_bmp qa qb qc qd
                        (by rw [qv]; rcases hval with hv | hv <;> omega)), ihr]
                      rw [qv, Char.ofNat_toNat]
                      rfl
                    · have hval := char_toNat_valid c
                      have h17 : c.toNat < 1114112 := by
                        rcases hval with hv | hv
                        · omega
                        · exact hv.2
                      rw [escChar, if_neg h1, if_neg h2, if_neg h3, if_neg h4, if_neg h5,
                        if_neg h6, if_neg h7, if_neg h8, if_neg h9]
                      have hq : (c.toNat - 65536) / 1024 < 1024 := by omega
                      have hr2 : (c.toNat - 65536) % 1024 < 1024 := Nat.mod_lt _ (by omega)
                      obtain ⟨qa, qb, qc, qd, qv⟩ :=
                        hexQuad (55296 + (c.toNat - 65536) / 1024) (by omega)
                      obtain ⟨ra, rb, rc, rd, rv⟩ :=
                        hexQuad (56320 + (c.toNat - 65536) % 1024) (by omega)
                      rw [hex4, hex4]
                      rw [show ('\\' :: 'u' :: [hexChar ((55296 + (c.toNat - 65536) / 1024) / 4096 % 16),
                            hexChar ((55296 + (c.toNat - 65536) / 1024) / 256 % 16),
                            hexChar ((55296 + (c.toNat - 65536) / 1024) / 16 % 16),
                            hexChar ((55296 + (c.toNat - 65536) / 1024) % 16)] ++
                          '\\' :: 'u' :: [hexChar ((56320 + (c.toNat - 65536) % 1024) / 4096 % 16),
                            hexChar ((56320 + (c.toNat - 65536) % 1024) / 256 % 16),
                            hexChar ((56320 + (c.toNat - 65536) % 1024) / 16 % 16),
                            hexChar ((56320 + (c.toNat - 65536) % 1024) % 16)]) ++ T =
                          '\\' :: 'u' :: hexChar ((55296 + (c.toNat - 65536) / 1024) / 4096 % 16) ::
                            hexChar ((55296 + (c.toNat - 65536) / 1024) / 256 % 16) ::
                            hexChar ((55296 + (c.toNat - 65536) / 1024) / 16 % 16) ::
                            hexChar ((55296 + (c.toNat - 65536) / 1024) % 16) ::
                          '\\' :: 'u' :: hexChar ((56320 + (c.toNat - 65536) % 1024) / 4096 % 16) ::
                            hexChar ((56320 + (c.toNat - 65536) % 1024) / 256 % 16) ::
                            hexChar ((56320 + (c.toNat - 65536) % 1024) / 16 % 16) ::
                            hexChar ((56320 + (c.toNat - 65536) % 1024) % 16) :: T by simp]
                      rw [pStrBody_bs (pEsc_u_sur qa qb qc qd ra rb rc rd
                        (by rw [qv]; omega) (by rw [rv]; omega)), ihr]
                      have harith :
                          65536 + (55296 + (c.toNat - 65536) / 1024 - 55296) * 1024 +
                            (56320 + (c.toNat - 65536) % 1024 - 56320) = c.toNat := by
                        have := Nat.div_add_mod (c.toNat - 65536) 1024
                        omega
                      rw [qv, rv, harith, Char.ofNat_toNat]
                      rfl

/-- Python `json.loads` on a character list: parse one value, require only
whitespace to remain. -/
def loadsChars (cs : List Char) : Option JVal :=
  match pVal (2 * cs.length + 2) cs with
  | some (v, rest) => if skipWs rest = [] then some v else none
  | none => none

/-! ## Fuel accounting and well-formedness for the round trip -/

mutual

/-- Fuel needed by `pVal` to parse the dump of a value. -/
def needV : JVal → Nat
  | .arr xs => needEs xs + 1
  | .obj kvs => needMs kvs + 1
  | _ => 1

def needEs : List JVal → Nat
  | [] => 1
  | x :: xs => needV x + needEs xs + 1

def needMs : List (String × JVal) → Nat
  | [] => 1
  | kv :: kvs => needV kv.2 + needMs kvs + 1

end

/-- Keys of an association list are pairwise distinct. -/
def keysNodup : List (String × JVal) → Bool
  | [] => true
  | (k, _) :: rest => !dmem seq rest k && keysNodup rest

mutual

/-- Well-formed value: every object has pairwise distinct keys (true of
every value that a Python dict tree can denote). -/
def jwfV : JVal → Bool
  | .arr xs => jwfL xs
  | .obj kvs => keysNodup kvs && jwfM kvs
  | _ => true

def jwfL : List JVal → Bool
  | [] => true
  | x :: xs => jwfV x && jwfL xs

def jwfM : List (String × JVal) → Bool
  | [] => true
  | kv :: kvs => jwfV kv.2 && jwfM kvs

end

theorem needV_pos : ∀ v, 1 ≤ needV v := by
  intro v
  cases v <;> simp [needV]

theorem skipWs_nws {c : Char} (h : isWs c = false) (cs : List Char) :
    skipWs (c :: cs) = c :: cs := by
  rw [skipWs, h]
  simp

theorem skipWs_sp (cs : List Char) : skipWs (' ' :: cs) = skipWs cs := by
  rw [skipWs]
  simp [isWs]

theorem pVal_sp (fuel : Nat) (cs : List Char) : pVal fuel (' ' :: cs) = pVal fuel cs := by
  cases fuel with
  | zero => simp [pVal]
  | succ f => rw [pVal, pVal, skipWs_sp]

theorem string_mk_data (s : String) : String.mk s.data = s := by
  cases s
  rfl

theorem dset_fresh {acc : List (String × JVal)} {k : String} {v : JVal}
    (h : dmem seq acc k = false) : dset seq acc k v = acc ++ [(k, v)] := by
  induction acc with
  | nil => rfl
  | cons kv rest ih =>
    obtain ⟨k', v'⟩ := kv
    simp only [dmem, Bool.or_eq_false_iff] at h
    rw [dset, h.1]
    simp [ih h.2]

theorem dmem_append (acc1 acc2 : List (String × JVal)) (k : String) :
    dmem seq (acc1 ++ acc2) k = (dmem seq acc1 k || dmem seq acc2 k) := by
  induction acc1 with
  | nil => simp [dmem]
  | cons kv t ih =>
    obtain ⟨k', v'⟩ := kv
    rw [List.cons_append]
    simp only [dmem, ih, Bool.or_assoc]

theorem dmem_of_mem {kvs : List (String × JVal)} {k : String} {v : JVal}
    (h : (k, v) ∈ kvs) : dmem seq kvs k = true := by
  induction kvs with
  | nil => simp at h
  | cons kv t ih =>
    obtain ⟨k', v'⟩ := kv
    simp only [dmem]
    rcases List.mem_cons.mp h with h1 | h1
    · cases h1
      simp [seq]
    · simp [ih h1]

theorem dictify_go (kvs : List (String × JVal)) :
    ∀ acc, keysNodup kvs = true → (∀ kv ∈ kvs, dmem seq acc kv.1 = false) →
    kvs.foldl (fun a kv => dset seq a kv.1 kv.2) acc = acc ++ kvs := by
  induction kvs with
  | nil => intro acc _ _; simp
  | cons kv rest ih =>
    intro acc hnd hfresh
    obtain ⟨k, v⟩ := kv
    simp only [keysNodup, Bool.and_eq_true, Bool.not_eq_true'] at hnd
    rw [List.foldl_cons]
    simp only
    rw [dset_fresh (hfresh (k, v) (by simp))]
    rw [ih (acc ++ [(k, v)]) hnd.2 ?_]
    · simp
    · intro kv2 hkv2
      obtain ⟨k2, v2⟩ := kv2
      rw [dmem_append]
      have h1 := hfresh (k2, v2) (by simp [hkv2])
      have h2 : seq k k2 = false := by
        by_contra hc
        simp only [Bool.not_eq_false, seq, decide_eq_true_eq] at hc
        subst hc
        have hmem := dmem_of_mem hkv2
        rw [hnd.1] at hmem
        exact Bool.noConfusion hmem
      simp only at h1
      simp [dmem, h1, h2]

theorem dictify_eq {kvs : List (String × JVal)} (h : keysNodup kvs = true) :
    dictify kvs = kvs := by
  rw [dictify, dictify_go kvs [] h (by intro kv _; rfl)]
  simp

theorem isDig_not_ws {c : Char} (h : isDig c = true) : isWs c = false := by
  by_contra hc
  simp only [Bool.not_eq_false] at hc
  simp only [isWs, Bool.or_eq_true, decide_eq_true_eq] at hc
  rcases hc with ((h1 | h1) | h1) | h1 <;> (subst h1; exact absurd h (by decide))

/-- Head of every dump: a non-whitespace character that is not `]`. -/
theorem dump_head (v : JVal) :
    ∃ c cs', dumpVal v = c :: cs' ∧ isWs c = false ∧ c ≠ ']' := by
  cases v with
  | null => exact ⟨'n', _, rfl, by decide, by decide⟩
  | bool b =>
    cases b
    · exact ⟨'f', _, rfl, by decide, by decide⟩
    · exact ⟨'t', _, rfl, by decide, by decide⟩
  | num n =>
    rw [dumpVal, intChars]
    by_cases hn : n < 0
    · exact ⟨'-', _, by rw [if_pos hn], by decide, by decide⟩
    · rw [if_neg hn, natDigitsZ]
      by_cases h0 : n.toNat = 0
      · exact ⟨'0', _, by rw [if_pos h0], by decide, by decide⟩
      · rw [if_neg h0]
        obtain ⟨c, cs, hc⟩ : ∃ c cs, natDigits n.toNat = c :: cs := by
          cases hnd : natDigits n.toNat with
          | nil => exact absurd hnd (natDigits_ne_nil h0)
          | cons c cs => exact ⟨c, cs, rfl⟩
        have hcd : isDig c = true := natDigits_digits _ c (by rw [hc]; simp)
        refine ⟨c, cs, hc, isDig_not_ws hcd, ?_⟩
        intro he
        subst he
        exact absurd hcd (by decide)
  | str s => exact ⟨'"', _, rfl, by decide, by decide⟩
  | arr xs => exact ⟨'[', _, rfl, by decide, by decide⟩
  | obj kvs => exact ⟨'\x7b', _, rfl, by decide, by decide⟩

theorem isDig_ne_starts {c : Char} (h : isDig c = true) :
    c ≠ 'n' ∧ c ≠ 't' ∧ c ≠ 'f' ∧ c ≠ '"' ∧ c ≠ '[' ∧ c ≠ '\x7b' ∧ c ≠ '-' := by
  refine ⟨?_, ?_, ?_, ?_, ?_, ?_, ?_⟩ <;> (intro he; subst he; exact absurd h (by decide))

theorem pElems_sp (fuel : Nat) (cs : List Char) :
    pElems fuel (' ' :: cs) = pElems fuel cs := by
  cases fuel with
  | zero => simp [pElems]
  | succ f => rw [pElems, pElems, pVal_sp]

theorem pElems_step {fuel : Nat} {cs : List Char} {v : JVal} {r : List Char}
    (h : pVal fuel cs = some (v, r)) :
    pElems (fuel + 1) cs = pElemsGo fuel v (skipWs r) := by
  rw [pElems]
  split
  next heq => rw [h] at heq; exact Option.noConfusion heq
  next v' r' heq =>
    rw [h] at heq
    injection heq with h2
    injection h2 with h3 h4
    subst h3
    subst h4
    rfl

theorem pMems_step {fuel : Nat} {cs1 : List Char} {k : List Char} {r1 : List Char}
    (h : pStrBody cs1 = some (k, r1)) :
    pMems (fuel + 1) ('"' :: cs1) = pMemsRest fuel k (skipWs r1) := by
  rw [pMems, if_pos rfl]
  split
  next heq => rw [h] at heq; exact Option.noConfusion heq
  next k' r1' heq =>
    rw [h] at heq
    injection heq with h2
    injection h2 with h3 h4
    subst h3
    subst h4
    rfl

theorem pMemsRest_step {fuel : Nat} {ds : List Char} {v : JVal} {r3 : List Char}
    (k : List Char) (h : pVal fuel ds = some (v, r3)) :
    pMemsRest fuel k (':' :: ds) = pMemsKV fuel k v (skipWs r3) := by
  rw [pMemsRest, if_pos rfl]
  split
  next heq => rw [h] at heq; exact Option.noConfusion heq
  next v' r' heq =>
    rw [h] at heq
    injection heq with h2
    injection h2 with h3 h4
    subst h3
    subst h4
    rfl

def RoundV (x : JVal) : Prop :=
  ∀ fuel rest, needV x ≤ fuel → numStop rest = true → jwfV x = true →
    pVal fuel (dumpVal x ++ rest) = some (x, rest)

theorem dumpMems_skip (l : List (String × JVal)) (hne : l ≠ []) (X : List Char) :
    skipWs (dumpMems l ++ X) = dumpMems l ++ X ∧
    ∃ Y, dumpMems l ++ X = '"' :: Y := by
  match l, hne with
  | (k, v) :: t, _ =>
    cases t with
    | nil =>
      constructor
      · rw [show dumpMems [(k, v)] = escString k ++ ':' :: ' ' :: dumpVal v from rfl,
          escString]
        simp only [List.append_assoc, List.cons_append, List.nil_append]
        rw [skipWs_nws (by decide)]
      · rw [show dumpMems [(k, v)] = escString k ++ ':' :: ' ' :: dumpVal v from rfl,
          escString]
        simp only [List.append_assoc, List.cons_append, List.nil_append]
        exact ⟨_, rfl⟩
    | cons m tt =>
      obtain ⟨k2, v2⟩ := m
      constructor
      · rw [dumpMems, escString]
        simp only [List.append_assoc, List.cons_append, List.nil_append]
        rw [skipWs_nws (by decide)]
      · rw [dumpMems, escString]
        simp only [List.append_assoc, List.cons_append, List.nil_append]
        exact ⟨_, rfl⟩

theorem pElems_dump (l : List JVal) (hpt : ∀ x ∈ l, RoundV x) :
    l ≠ [] → ∀ fuel rest, needEs l ≤ fuel → jwfL l = true →
    pElems fuel (dumpElems l ++ ']' :: rest) = some (l, rest) := by
  induction l with
  | nil => intro h; exact absurd rfl h
  | cons x t ihl =>
    intro _ fuel rest hf hwf
    simp only [jwfL, Bool.and_eq_true] at hwf
    rw [needEs] at hf
    obtain ⟨f, rfl⟩ : ∃ f, fuel = f + 1 := ⟨fuel - 1, by omega⟩
    cases t with
    | nil =>
      rw [show dumpElems [x] = dumpVal x from rfl]
      rw [pElems_step
        (hpt x (by simp) f (']' :: rest) (by rw [needEs] at hf; omega) (by rfl) hwf.1)]
      rw [skipWs_nws (by decide), pElemsGo, if_neg (by decide), if_pos rfl]
    | cons y tt =>
      rw [dumpElems]
      simp only [List.append_assoc, List.cons_append, List.nil_append]
      rw [pElems_step (hpt x (by simp) f _ (by omega) (by rfl) hwf.1)]
      rw [skipWs_nws (by decide), pElemsGo, if_pos rfl, pElems_sp]
      rw [ihl (fun z hz => hpt z (by simp [hz])) (by simp) f rest (by omega) hwf.2]
      rfl

theorem pMems_dump (l : List (String × JVal)) (hpt : ∀ kv ∈ l, RoundV kv.2) :
    l ≠ [] → ∀ fuel rest, needMs l ≤ fuel → jwfM l = true →
    pMems fuel (dumpMems l ++ '\x7d' :: rest) = some (l, rest) := by
  induction l with
  | nil => intro h; exact absurd rfl h
  | cons kv t ihl =>
    intro _ fuel rest hf hwf
    obtain ⟨k, v⟩ := kv
    simp only [jwfM, Bool.and_eq_true] at hwf
    rw [needMs] at hf
    obtain ⟨f, rfl⟩ : ∃ f, fuel = f + 1 := ⟨fuel - 1, by omega⟩
    cases t with
    | nil =>
      rw [show dumpMems [(k, v)] = escString k ++ ':' :: ' ' :: dumpVal v from rfl,
        escString]
      simp only [List.append_assoc, List.cons_append, List.nil_append]
      rw [pMems_step (pStrBody_esc k.data _)]
      rw [skipWs_nws (by decide)]
      rw [pMemsRest_step k.data (by
        rw [pVal_sp]
        exact hpt (k, v) (by simp) f ('\x7d' :: rest) (by simp at hf ⊢; omega)
          (by rfl) hwf.1)]
      rw [skipWs_nws (by decide), pMemsKV, if_neg (by decide), if_pos rfl, string_mk_data]
    | cons m tt =>
      obtain ⟨k2, v2⟩ := m
      rw [dumpMems, escString]
      simp only [List.append_assoc, List.cons_append, List.nil_append]
      rw [pMems_step (pStrBody_esc k.data _)]
      rw [skipWs_nws (by decide)]
      rw [pMemsRest_step k.data (by
        rw [pVal_sp]
        exact hpt (k, v) (by simp) f _ (by omega) (by rfl) hwf.1)]
      rw [skipWs_nws (by decide), pMemsKV, if_pos rfl, skipWs_sp]
      rw [(dumpMems_skip ((k2, v2) :: tt) (by simp) ('\x7d' :: rest)).1]
      rw [ihl (fun z hz => hpt z (by simp [hz])) (by simp) f rest (by omega) hwf.2]
      rw [string_mk_data]
      rfl

theorem pVal_dump : ∀ v, RoundV v := by
  intro v
  induction v using jval_ind with
  | h1 =>
    intro fuel rest hf _ _
    obtain ⟨f, rfl⟩ : ∃ f, fuel = f + 1 := ⟨fuel - 1, by have := needV_pos .null; omega⟩
    rw [show dumpVal .null ++ rest = 'n' :: 'u' :: 'l' :: 'l' :: rest by simp [dumpVal]]
    rw [pVal, skipWs_nws (by decide), pValGo, if_pos rfl, pKeyword,
      if_pos ⟨rfl, rfl, rfl⟩]
  | h2 b =>
    intro fuel rest hf _ _
    obtain ⟨f, rfl⟩ : ∃ f, fuel = f + 1 := ⟨fuel - 1, by have := needV_pos (.bool b); omega⟩
    cases b
    · rw [show dumpVal (.bool false) ++ rest = 'f' :: 'a' :: 'l' :: 's' :: 'e' :: rest
        by simp [dumpVal]]
      rw [pVal, skipWs_nws (by decide), pValGo, if_neg (by decide), if_neg (by decide),
        if_pos rfl, pKeyword4, if_pos ⟨rfl, rfl, rfl, rfl⟩]
    · rw [show dumpVal (.bool true) ++ rest = 't' :: 'r' :: 'u' :: 'e' :: rest
        by simp [dumpVal]]
      rw [pVal, skipWs_nws (by decide), pValGo, if_neg (by decide), if_pos rfl, pKeyword,
        if_pos ⟨rfl, rfl, rfl⟩]
  | h3 n =>
    intro fuel rest hf hstop _
    obtain ⟨f, rfl⟩ : ∃ f, fuel = f + 1 := ⟨fuel - 1, by have := needV_pos (.num n); omega⟩
    rw [dumpVal, intChars]
    by_cases hn : n < 0
    · rw [if_pos hn, List.cons_append, pVal, skipWs_nws (by decide), pValGo]
      rw [if_neg (by decide), if_neg (by decide), if_neg (by decide), if_neg (by decide),
        if_neg (by decide), if_neg (by decide), if_pos rfl]
      rw [pNum_round hstop]
      have hval : -((n.natAbs : Nat) : Int) = n := by omega
      show some (JVal.num (-((n.natAbs : Nat) : Int)), rest) = some (JVal.num n, rest)
      rw [hval]
    · rw [if_neg hn, natDigitsZ]
      by_cases h0 : n.toNat = 0
      · rw [if_pos h0, List.cons_append, List.nil_append, pVal, skipWs_nws (by decide),
          pValGo]
        rw [if_neg (by decide), if_neg (by decide), if_neg (by decide), if_neg (by decide),
          if_neg (by decide), if_neg (by decide), if_neg (by decide), if_pos (by decide)]
        rw [show '0' :: rest = natDigitsZ 0 ++ rest by simp [natDigitsZ]]
        rw [pNum_round hstop]
        have hval : ((0 : Nat) : Int) = n := by omega
        show some (JVal.num ((0 : Nat) : Int), rest) = some (JVal.num n, rest)
        rw [hval]
      · rw [if_neg h0]
        obtain ⟨c, cs, hc⟩ : ∃ c cs, natDigits n.toNat = c :: cs := by
          cases hnd : natDigits n.toNat with
          | nil => exact absurd hnd (natDigits_ne_nil h0)
          | cons c cs => exact ⟨c, cs, rfl⟩
        have hcd : isDig c = true := natDigits_digits _ c (by rw [hc]; simp)
        obtain ⟨g1, g2, g3, g4, g5, g6, g7⟩ := isDig_ne_starts hcd
        rw [hc, List.cons_append, pVal, skipWs_nws (isDig_not_ws hcd), pValGo]
        rw [if_neg g1, if_neg g2, if_neg g3, if_neg g4, if_neg g5, if_neg g6, if_neg g7,
          if_pos hcd]
        rw [show c :: (cs ++ rest) = natDigitsZ n.toNat ++ rest by
          rw [natDigitsZ, if_neg h0, hc]; simp]
        rw [pNum_round hstop]
        have hval : ((n.toNat : Nat) : Int) = n := by omega
        show some (JVal.num ((n.toNat : Nat) : Int), rest) = some (JVal.num n, rest)
        rw [hval]
  | h4 s =>
    intro fuel rest hf _ _
    obtain ⟨f, rfl⟩ : ∃ f, fuel = f + 1 := ⟨fuel - 1, by have := needV_pos (.str s); omega⟩
    rw [dumpVal, escString]
    simp only [List.append_assoc, List.cons_append, List.nil_append]
    rw [pVal, skipWs_nws (by decide), pValGo]
    rw [if_neg (by decide), if_neg (by decide), if_neg (by decide), if_pos rfl]
    rw [pStrBody_esc]
    simp [string_mk_data]
  | h5 xs ih =>
    intro fuel rest hf _ hwf
    rw [jwfV] at hwf
    rw [needV] at hf
    obtain ⟨f, rfl⟩ : ∃ f, fuel = f + 1 := ⟨fuel - 1, by omega⟩
    rw [dumpVal]
    simp only [List.append_assoc, List.cons_append, List.nil_append]
    rw [pVal, skipWs_nws (by decide), pValGo]
    rw [if_neg (by decide), if_neg (by decide), if_neg (by decide), if_neg (by decide),
      if_pos rfl]
    cases xs with
    | nil =>
      rw [show dumpElems [] ++ ']' :: rest = ']' :: rest from rfl]
      rw [skipWs_nws (by decide), pArrGo, if_pos rfl]
    | cons x t =>
      obtain ⟨c0, cs0, hc0, hws0, hbr0⟩ := dump_head x
      have hsplit : ∃ T2, dumpElems (x :: t) = dumpVal x ++ T2 := by
        cases t with
        | nil => exact ⟨[], by simp [dumpElems]⟩
        | cons y tt => exact ⟨',' :: ' ' :: dumpElems (y :: tt), rfl⟩
      obtain ⟨T2, hT2⟩ := hsplit
      have hcons : dumpElems (x :: t) ++ ']' :: rest =
          c0 :: ((cs0 ++ T2) ++ ']' :: rest) := by
        rw [hT2, hc0]; simp
      have hskip : skipWs (dumpElems (x :: t) ++ ']' :: rest) =
          dumpElems (x :: t) ++ ']' :: rest := by
        rw [hcons, skipWs_nws hws0]
      rw [hskip, hcons, pArrGo, if_neg hbr0, ← hcons]
      rw [pElems_dump (x :: t) ih (by simp) f rest (by omega) hwf]
      rfl
  | h6 kvs ih =>
    intro fuel rest hf _ hwf
    rw [jwfV] at hwf
    simp only [Bool.and_eq_true] at hwf
    rw [needV] at hf
    obtain ⟨f, rfl⟩ : ∃ f, fuel = f + 1 := ⟨fuel - 1, by omega⟩
    rw [dumpVal]
    simp only [List.append_assoc, List.cons_append, List.nil_append]
    rw [pVal, skipWs_nws (by decide), pValGo]
    rw [if_neg (by decide), if_neg (by decide), if_neg (by decide), if_neg (by decide),
      if_neg (by decide), if_pos rfl]
    cases kvs with
    | nil =>
      rw [show dumpMems [] ++ '\x7d' :: rest = '\x7d' :: rest from rfl]
      rw [skipWs_nws (by decide), pObjGo, if_pos rfl]
    | cons kv t =>
      obtain ⟨k, v⟩ := kv
      obtain ⟨hskip, Y, hY⟩ := dumpMems_skip ((k, v) :: t) (by simp) ('\x7d' :: rest)
      rw [hskip, hY, pObjGo, if_neg (by decide), ← hY]
      rw [pMems_dump ((k, v) :: t) ih (by simp) f rest (by omega) hwf.2]
      simp [dictify_eq hwf.1]

/-- Python `json.loads`. -/
def loads (s : String) : Option JVal := loadsChars s.data

theorem natDigitsZ_ne_nil (n : Nat) : natDigitsZ n ≠ [] := by
  rw [natDigitsZ]
  split
  · simp
  · exact natDigits_ne_nil (by assumption)

theorem intChars_ne_nil (n : Int) : intChars n ≠ [] := by
  rw [intChars]
  split
  · simp
  · exact natDigitsZ_ne_nil _

theorem dumpVal_len_pos : ∀ v : JVal, 1 ≤ (dumpVal v).length := by
  intro v
  cases v with
  | null => simp [dumpVal]
  | bool b => cases b <;> simp [dumpVal]
  | num n =>
    rw [dumpVal]
    exact List.length_pos.mpr (intChars_ne_nil n)
  | str s => rw [dumpVal, escString]; simp
  | arr xs => rw [dumpVal]; simp
  | obj kvs => rw [dumpVal]; simp

theorem needEs_le_aux : ∀ l : List JVal,
    (∀ x ∈ l, needV x ≤ 2 * (dumpVal x).length) →
    needEs l ≤ 2 * (dumpElems l).length + 3 := by
  intro l
  induction l with
  | nil => intro _; rw [needEs]; omega
  | cons x t ih =>
    intro hx
    have h1 := hx x (by simp)
    cases t with
    | nil =>
      rw [needEs, needEs, dumpElems]
      omega
    | cons y r =>
      have h2 := ih (fun z hz => hx z (by simp [hz]))
      rw [needEs, dumpElems]
      simp only [List.length_append, List.length_cons]
      omega

theorem needMs_le_aux : ∀ l : List (String × JVal),
    (∀ kv ∈ l, needV kv.2 ≤ 2 * (dumpVal kv.2).length) →
    needMs l ≤ 2 * (dumpMems l).length + 3 := by
  intro l
  induction l with
  | nil => intro _; rw [needMs]; omega
  | cons kv t ih =>
    intro hx
    obtain ⟨k, v⟩ := kv
    have h1 : needV v ≤ 2 * (dumpVal v).length := hx (k, v) (by simp)
    cases t with
    | nil =>
      rw [needMs, needMs, dumpMems]
      simp only [List.length_append, List.length_cons]
      omega
    | cons m r =>
      have h2 := ih (fun z hz => hx z (by simp [hz]))
      rw [needMs, dumpMems]
      simp only [List.length_append, List.length_cons]
      omega

theorem needV_le : ∀ v : JVal, needV v ≤ 2 * (dumpVal v).length := by
  intro v
  induction v using jval_ind with
  | h1 => simp [needV, dumpVal]
  | h2 b => cases b <;> simp [needV, dumpVal]
  | h3 n =>
    have h := dumpVal_len_pos (.num n)
    simp only [needV]
    omega
  | h4 s =>
    have h := dumpVal_len_pos (.str s)
    simp only [needV]
    omega
  | h5 xs ih =>
    have h := needEs_le_aux xs ih
    rw [needV, dumpVal]
    simp only [List.length_append, List.length_cons]
    omega
  | h6 kvs ih =>
    have h := needMs_le_aux kvs ih
    rw [needV, dumpVal]
    simp only [List.length_append, List.length_cons]
    omega

/-- The round trip: `json.loads` recovers every well-formed value that
`json.dumps` wrote. -/
theorem loads_dumps (v : JVal) (h : jwfV v = true) : loads (dumps v) = some v := by
  have hp := pVal_dump v (2 * (dumpVal v).length + 2) []
    (by have := needV_le v; omega) (by rfl) h
  rw [List.append_nil] at hp
  show loadsChars (dumpVal v) = some v
  simp [loadsChars, hp, skipWs]

/-! ## The decoder: `parse_messages` (source lines 31-49) -/

/-- Does the text start with `~m~` followed by a digit?  A match of the
delimiter regex `~m~\d+~m~` requires this seed; since `~` is not a digit the
greedy `\d+` never backtracks, so seed-freedom rules matches out. -/
def seedAt : List Char → Bool
  | a :: b :: c :: d :: _ => a = '~' && b = 'm' && c = '~' && isDig d
  | _ => false

/-- Some position in the text starts `~m~` followed by a digit. -/
def hasSeed : List Char → Bool
  | [] => false
  | c :: cs => seedAt (c :: cs) || hasSeed cs

/-- After an opening `~m~`: a nonempty digit run, then the closing `~m~`;
returns the text after the whole delimiter. -/
def matchDigits (cs : List Char) : Option (List Char) :=
  match takeDigits cs with
  | (_ :: _, e :: f :: g :: r) => if e = '~' ∧ f = 'm' ∧ g = '~' then some r else none
  | _ => none

/-- A match of the delimiter regex `~m~\d+~m~` at the head of the text. -/
def matchMD : List Char → Option (List Char)
  | a :: b :: c :: cs => if a = '~' ∧ b = 'm' ∧ c = '~' then matchDigits cs else none
  | _ => none

theorem takeDigits_len : ∀ cs : List Char,
    (takeDigits cs).1.length + (takeDigits cs).2.length = cs.length := by
  intro cs
  induction cs with
  | nil => rfl
  | cons c cs ih =>
    rw [takeDigits]
    split
    · simp only [List.length_cons]
      omega
    · simp

theorem matchMD_length : ∀ cs r, matchMD cs = some r → r.length + 7 ≤ cs.length := by
  intro cs r h
  match cs with
  | [] => simp [matchMD] at h
  | [a] => simp [matchMD] at h
  | [a, b] => simp [matchMD] at h
  | a :: b :: c :: cs3 =>
    rw [matchMD] at h
    split at h
    · rw [matchDigits] at h
      have hlen := takeDigits_len cs3
      split at h
      · next d ds e f g r2 heq =>
        split at h
        · injection h with h
          subst h
          rw [heq] at hlen
          simp only [List.length_cons] at hlen
          simp only [List.length_cons]
          omega
        · cases h
      · cases h
    · cases h

/-- `re.split(r"~m~\d+~m~", ·)`: scan left to right, cutting the accumulated
piece at each leftmost non-overlapping match. -/
def reSplitGo (acc : List Char) : List Char → List (List Char)
  | [] => [acc]
  | c :: cs =>
    match hm : matchMD (c :: cs) with
    | some r => acc :: reSplitGo [] r
    | none => reSplitGo (acc ++ [c]) cs
termination_by cs => cs.length
decreasing_by
  · have := matchMD_length (c :: cs) r hm
    simp only [List.length_cons] at this ⊢
    omega
  · simp

/-- `re.split(r"~m~\d+~m~", st)`. -/
def reSplit (cs : List Char) : List (List Char) := reSplitGo [] cs

theorem reSplitGo_nil (acc : List Char) : reSplitGo acc [] = [acc] := by
  rw [reSplitGo]

theorem reSplitGo_match {c : Char} {cs r : List Char} (acc : List Char)
    (h : matchMD (c :: cs) = some r) :
    reSplitGo acc (c :: cs) = acc :: reSplitGo [] r := by
  rw [reSplitGo]
  split
  · next r2 hm =>
    rw [h] at hm
    injection hm with hm
    subst hm
    rfl
  · next hm => rw [h] at hm; cases hm

theorem reSplitGo_nomatch {c : Char} {cs : List Char} (acc : List Char)
    (h : matchMD (c :: cs) = none) :
    reSplitGo acc (c :: cs) = reSplitGo (acc ++ [c]) cs := by
  rw [reSplitGo]
  split
  · next r2 hm => rw [h] at hm; cases hm
  · rfl

theorem matchMD_none_of_seed : ∀ {cs : List Char}, seedAt cs = false →
    matchMD cs = none := by
  intro cs h
  match cs with
  | [] => rfl
  | [a] => rfl
  | [a, b] => rfl
  | a :: b :: c :: cs3 =>
    rw [matchMD]
    by_cases habc : a = '~' ∧ b = 'm' ∧ c = '~'
    · rw [if_pos habc]
      obtain ⟨ha, hb, hc⟩ := habc
      subst ha; subst hb; subst hc
      match cs3, h with
      | [], _ => rfl
      | d :: cs4, h =>
        rw [seedAt] at h
        simp at h
        rw [matchDigits, takeDigits, h]
        simp
    · rw [if_neg habc]

theorem restSafe_seed : ∀ (P rest : List Char), hasSeed P = false →
    (rest = [] ∨ ∃ t, rest = '~' :: 'm' :: '~' :: t) → P ≠ [] →
    seedAt (P ++ rest) = false := by
  intro P rest hP hrest hne
  match P, hne with
  | [a], _ =>
    rcases hrest with h | ⟨t, h⟩ <;> subst h
    · rfl
    · simp [seedAt]
  | [a, b], _ =>
    rcases hrest with h | ⟨t, h⟩ <;> subst h
    · rfl
    · simp [seedAt, isDig]
  | [a, b, c], _ =>
    rcases hrest with h | ⟨t, h⟩ <;> subst h
    · rfl
    · simp [seedAt, isDig]
  | a :: b :: c :: d :: P4, _ =>
    rw [hasSeed] at hP
    simp only [Bool.or_eq_false_iff] at hP
    simpa [seedAt] using hP.1

theorem reSplitGo_skip : ∀ (P : List Char), hasSeed P = false →
    ∀ rest, (rest = [] ∨ ∃ t, rest = '~' :: 'm' :: '~' :: t) →
    ∀ acc, reSplitGo acc (P ++ rest) = reSplitGo (acc ++ P) rest := by
  intro P
  induction P with
  | nil =>
    intro _ rest _ acc
    simp
  | cons c P ih =>
    intro hseed rest hrest acc
    have h1 : seedAt (c :: (P ++ rest)) = false :=
      restSafe_seed (c :: P) rest hseed hrest (by simp)
    rw [List.cons_append, reSplitGo_nomatch acc (matchMD_none_of_seed h1)]
    rw [hasSeed] at hseed
    simp only [Bool.or_eq_false_iff] at hseed
    rw [ih hseed.2 rest hrest (acc ++ [c])]
    simp

theorem matchMD_header (L : Nat) (rest : List Char) :
    matchMD ('~' :: 'm' :: '~' :: (natDigitsZ L ++ '~' :: 'm' :: '~' :: rest)) =
      some rest := by
  rw [matchMD, if_pos ⟨rfl, rfl, rfl⟩]
  obtain ⟨d, ds, hds⟩ : ∃ d ds, natDigitsZ L = d :: ds := by
    cases h : natDigitsZ L with
    | nil => exact absurd h (natDigitsZ_ne_nil L)
    | cons d ds => exact ⟨d, ds, rfl⟩
  rw [matchDigits, takeDigits_append (natDigitsZ_digits L) (by rfl), hds]
  rfl

/-- The logical message value `{"m": method, "p": params}` that
`construct_message` serializes. -/
def msgObj (mp : String × List JVal) : JVal :=
  .obj [("m", .str mp.1), ("p", .arr mp.2)]

/-- A batch of frames concatenated into one wire string. -/
def concatFrames (msgs : List (String × List JVal)) : String :=
  (msgs.map (fun mp => construct_message mp.1 mp.2)).foldr (fun a b => a ++ b) ""

theorem concatFrames_cons (mp : String × List JVal) (t : List (String × List JVal)) :
    (concatFrames (mp :: t)).data =
      '~' :: 'm' :: '~' :: (natDigitsZ (dumpVal (msgObj mp)).length ++
        '~' :: 'm' :: '~' :: (dumpVal (msgObj mp) ++ (concatFrames t).data)) := by
  show (construct_message mp.1 mp.2 ++ concatFrames t).data = _
  rw [construct_message, prepend_header]
  show ("~m~".data ++ (natRepr (dumps (msgObj mp)).length).data ++ "~m~".data ++
      (dumps (msgObj mp)).data) ++ (concatFrames t).data = _
  rw [natRepr, dumps]
  show (['~', 'm', '~'] ++ natDigitsZ (String.mk (dumpVal (msgObj mp))).length ++
      ['~', 'm', '~'] ++ dumpVal (msgObj mp)) ++ (concatFrames t).data = _
  rw [show (String.mk (dumpVal (msgObj mp))).length = (dumpVal (msgObj mp)).length
    from rfl]
  simp

/-- The tail of a frame batch is empty or starts with the next header. -/
theorem concatFrames_safe (t : List (String × List JVal)) :
    (concatFrames t).data = [] ∨
      ∃ r, (concatFrames t).data = '~' :: 'm' :: '~' :: r := by
  cases t with
  | nil => exact Or.inl rfl
  | cons mp t2 => exact Or.inr ⟨_, concatFrames_cons mp t2⟩

theorem reSplitGo_frames : ∀ (msgs : List (String × List JVal)),
    (∀ mp ∈ msgs, hasSeed (dumpVal (msgObj mp)) = false) →
    ∀ acc, reSplitGo acc (concatFrames msgs).data =
      acc :: msgs.map (fun mp => dumpVal (msgObj mp)) := by
  intro msgs
  induction msgs with
  | nil =>
    intro _ acc
    exact reSplitGo_nil acc
  | cons mp t ih =>
    intro hs acc
    rw [concatFrames_cons]
    rw [reSplitGo_match acc (matchMD_header _ _)]
    rw [reSplitGo_skip (dumpVal (msgObj mp)) (hs mp (by simp))
      (concatFrames t).data (concatFrames_safe t) []]
    rw [List.nil_append, ih (fun x hx => hs x (by simp [hx])) (dumpVal (msgObj mp))]
    rfl

/-- `st.startswith("~h~")`. -/
def startsH : List Char → Bool
  | a :: b :: c :: _ => a = '~' && b = 'h' && c = '~'
  | _ => false

/-- The decoder's heartbeat marker object `{"type": "ping", "data": st}`. -/
def pingObj (st : String) : JVal :=
  .obj [("type", .str "ping"), ("data", .str st)]

/-- The body of the decoder's loop on one piece of the split: skip empty
pieces, parse JSON, fall back to a ping object for `~h~` pieces, drop the
rest. -/
def handlePiece (m : List Char) : Option JVal :=
  if m = [] then none
  else
    match loadsChars m with
    | some v => some v
    | none => if startsH m then some (pingObj (String.mk m)) else none

/-- Python `parse_messages(st)`, with JSON values as the results (the ping
dicts become `pingObj`). -/
def parse_messages (st : String) : List JVal :=
  if st.data = [] then []
  else if startsH st.data then [pingObj st]
  else (reSplit st.data).filterMap handlePiece

theorem handlePiece_loads {m : List Char} {v : JVal} (hm : m ≠ [])
    (h : loadsChars m = some v) : handlePiece m = some v := by
  rw [handlePiece, if_neg hm, h]

theorem loadsChars_dump {v : JVal} (h : jwfV v = true) :
    loadsChars (dumpVal v) = some v := loads_dumps v h

theorem jwfV_msgObj {mp : String × List JVal} (h : jwfL mp.2 = true) :
    jwfV (msgObj mp) = true := by
  simp [msgObj, jwfV, jwfM, jwfL, keysNodup, dmem, seq, h]

theorem dumpVal_msgObj_ne_nil (mp : String × List JVal) :
    dumpVal (msgObj mp) ≠ [] := by
  rw [msgObj, dumpVal]
  simp

theorem filterMap_frames : ∀ (l : List (String × List JVal)),
    (∀ mp ∈ l, jwfL mp.2 = true) →
    (l.map (fun mp => dumpVal (msgObj mp))).filterMap handlePiece = l.map msgObj := by
  intro l
  induction l with
  | nil => intro _; rfl
  | cons mp t ih =>
    intro h
    rw [List.map_cons, List.filterMap_cons,
      handlePiece_loads (dumpVal_msgObj_ne_nil mp)
        (loadsChars_dump (jwfV_msgObj (h mp (by simp)))),
      ih (fun x hx => h x (by simp [hx])), List.map_cons]

/-- C2 (corrected): concatenated frames decode back to the original message
sequence, provided no serialized payload contains `~m~` followed by a digit
(the delimiter seed).  Payloads containing the delimiter are cut by the
decoder's regex split — see the counterexample. -/
theorem frames_decode_concat (msgs : List (String × List JVal))
    (hseed : ∀ mp ∈ msgs, hasSeed (dumpVal (msgObj mp)) = false)
    (hwf : ∀ mp ∈ msgs, jwfL mp.2 = true) :
    parse_messages (concatFrames msgs) = msgs.map msgObj := by
  cases msgs with
  | nil => rfl
  | cons mp t =>
    have hne : (concatFrames (mp :: t)).data ≠ [] := by
      rw [concatFrames_cons]
      simp
    have hsh : startsH (concatFrames (mp :: t)).data = false := by
      rw [concatFrames_cons]
      simp [startsH]
    rw [parse_messages, if_neg hne, if_neg (by simp [hsh]), reSplit,
      reSplitGo_frames (mp :: t) hseed [], List.filterMap_cons,
      show handlePiece [] = none from rfl]
    exact filterMap_frames (mp :: t) hwf

set_option maxRecDepth 4096 in
/-- Witness for C2's corrected statement at a concrete message batch. -/
theorem frames_decode_concat_witness :
    parse_messages (concatFrames [("x", [JVal.num 5])]) =
      List.map msgObj [("x", [JVal.num 5])] :=
  frames_decode_concat [("x", [JVal.num 5])]
    (by
      intro mp hmp
      simp only [List.mem_singleton] at hmp
      subst hmp
      simp +decide [msgObj, dumpVal, dumpMems, dumpElems, escString, cmap,
        escChar, intChars, natDigitsZ, natDigits, natDigitsAux, digitChar,
        hasSeed, seedAt, isDig])
    (by
      intro mp hmp
      simp only [List.mem_singleton] at hmp
      subst hmp
      simp [jwfL, jwfV])

set_option maxRecDepth 4096 in
/-- C2 as literally stated is false: a message whose serialized payload
contains the delimiter `~m~1~m~` decodes to the empty list, not to the
original one-message sequence. -/
theorem frames_decode_concat_counterexample :
    parse_messages (concatFrames [("~m~1~m~", ([] : List JVal))]) ≠
      List.map msgObj [("~m~1~m~", ([] : List JVal))] := by
  have hA : (concatFrames [("~m~1~m~", ([] : List JVal))]).data =
      ['~', 'm', '~', '2', '5', '~', 'm', '~',
       '\x7b', '"', 'm', '"', ':', ' ', '"', '~', 'm', '~', '1', '~', 'm', '~', '"',
       ',', ' ', '"', 'p', '"', ':', ' ', '[', ']', '\x7d'] := by
    rw [concatFrames_cons]
    simp +decide [concatFrames, msgObj, dumpVal, dumpMems, dumpElems, escString,
      cmap, escChar, natDigitsZ, natDigits, natDigitsAux, digitChar]
  have hB : reSplit
      ['~', 'm', '~', '2', '5', '~', 'm', '~',
       '\x7b', '"', 'm', '"', ':', ' ', '"', '~', 'm', '~', '1', '~', 'm', '~', '"',
       ',', ' ', '"', 'p', '"', ':', ' ', '[', ']', '\x7d'] =
      [[], ['\x7b', '"', 'm', '"', ':', ' ', '"'],
       ['"', ',', ' ', '"', 'p', '"', ':', ' ', '[', ']', '\x7d']] := by
    simp +decide [reSplit, reSplitGo, matchMD, matchDigits, takeDigits, isDig]
  have hC1 : handlePiece ['\x7b', '"', 'm', '"', ':', ' ', '"'] = none := by
    simp +decide [handlePiece, loadsChars, pVal, pValGo, pArrGo, pObjGo, pElems,
      pElemsGo, pMems, pMemsRest, pMemsKV, pKeyword, pKeyword4, pStrBody, pEsc,
      pEscU, pLowSur, pHex4, pNum, numStop, skipWs, isWs, startsH, isDig]
  have hC2 : handlePiece ['"', ',', ' ', '"', 'p', '"', ':', ' ', '[', ']', '\x7d'] =
      none := by
    simp +decide [handlePiece, loadsChars, pVal, pValGo, pArrGo, pObjGo, pElems,
      pElemsGo, pMems, pMemsRest, pMemsKV, pKeyword, pKeyword4, pStrBody, pEsc,
      pEscU, pLowSur, pHex4, pNum, numStop, skipWs, isWs, startsH, isDig]
  rw [parse_messages, hA]
  rw [if_neg (by simp), if_neg (by simp [startsH]), hB]
  rw [List.filterMap_cons, show handlePiece ([] : List Char) = none from rfl,
    List.filterMap_cons, hC1, List.filterMap_cons, hC2, List.filterMap_nil]
  simp [msgObj]

/-! ## The heartbeat path (source: `listen` lines 383-396, `_handle_heartbeat`
lines 360-361) -/

/-- `isinstance(msg, dict) and msg.get("type") == "ping"`. -/
def isPingTag : Option JVal → Bool
  | some (.str s) => s = "ping"
  | _ => false

def isPing (msg : JVal) : Bool :=
  match msg with
  | .obj kvs => isPingTag (dget seq kvs "type")
  | _ => false

/-- The outbound writes one `listen`-loop iteration performs for one received
string: `_handle_heartbeat` frames and sends `msg["data"]` for each ping;
`on_message` never writes. -/
def listenWrites (raw : String) : List String :=
  (parse_messages raw).filterMap (fun msg =>
    if isPing msg then
      match jget msg "data" with
      | some (.str d) => some (prepend_header d)
      | _ => none
    else none)

theorem isDig_ne_tilde {c : Char} (h : isDig c = true) : c ≠ '~' := by
  intro he
  subst he
  simp [isDig] at h

theorem hasSeed_digits : ∀ ds : List Char, (∀ c ∈ ds, isDig c = true) →
    hasSeed ds = false := by
  intro ds
  induction ds with
  | nil => intro _; rfl
  | cons d ds ih =>
    intro h
    rw [hasSeed, ih (fun c hc => h c (by simp [hc]))]
    have hd := isDig_ne_tilde (h d (by simp))
    match ds with
    | [] => rfl
    | [a] => rfl
    | [a, b] => rfl
    | a :: b :: c :: ds3 => simp [seedAt, hd]

theorem hasSeed_heartbeat (ds : List Char) (h : ∀ c ∈ ds, isDig c = true) :
    hasSeed ('~' :: 'h' :: '~' :: ds) = false := by
  rw [hasSeed, hasSeed, hasSeed, hasSeed_digits ds h]
  have h1 : seedAt ('~' :: 'h' :: '~' :: ds) = false := by
    match ds with
    | [] => rfl
    | d :: ds2 => simp [seedAt]
  have h2 : seedAt ('h' :: '~' :: ds) = false := by
    match ds with
    | [] => rfl
    | [d] => rfl
    | d :: e :: ds2 => simp [seedAt]
  have h3 : seedAt ('~' :: ds) = false := by
    match ds with
    | [] => rfl
    | [d] => rfl
    | [d, e] => rfl
    | d :: e :: f :: ds3 =>
      have hd := isDig_ne_tilde (h d (by simp))
      have : d ≠ 'm' := by
        intro he
        subst he
        simp [isDig] at hd
        exact absurd (h 'm' (by simp)) (by decide)
      simp [seedAt, this]
  rw [h1, h2, h3]
  rfl

theorem loadsChars_tilde (cs : List Char) : loadsChars ('~' :: cs) = none := by
  have hp : pVal (2 * ('~' :: cs).length + 2) ('~' :: cs) = none := by
    rw [show 2 * ('~' :: cs).length + 2 = (2 * ('~' :: cs).length + 1) + 1 by omega]
    rw [pVal, skipWs_nws (by decide), pValGo]
    simp [isDig]
  simp only [loadsChars, List.length_cons]
  simp only [List.length_cons] at hp
  rw [hp]

/-- C6: a framed heartbeat `~h~<n>` is echoed back verbatim, framed, with the
same numeric part. -/
theorem heartbeat_echo (n : Nat) :
    listenWrites (prepend_header ("~h~" ++ natRepr n)) =
      [prepend_header ("~h~" ++ natRepr n)] := by
  have hdig := natDigitsZ_digits n
  have hdata : (prepend_header ("~h~" ++ natRepr n)).data =
      '~' :: 'm' :: '~' :: (natDigitsZ ("~h~" ++ natRepr n).length ++
        '~' :: 'm' :: '~' :: ('~' :: 'h' :: '~' :: natDigitsZ n)) := by
    show (['~', 'm', '~'] ++ natDigitsZ ("~h~" ++ natRepr n).length ++
        ['~', 'm', '~'] ++ ('~' :: 'h' :: '~' :: natDigitsZ n) : List Char) = _
    simp
  have h1 := reSplitGo_skip ('~' :: 'h' :: '~' :: natDigitsZ n)
    (hasSeed_heartbeat _ hdig) [] (Or.inl rfl) []
  rw [List.append_nil] at h1
  have hsplit : reSplit (prepend_header ("~h~" ++ natRepr n)).data =
      [[], '~' :: 'h' :: '~' :: natDigitsZ n] := by
    rw [hdata, reSplit, reSplitGo_match [] (matchMD_header _ _), h1,
      List.nil_append, reSplitGo_nil]
  have hpiece : handlePiece ('~' :: 'h' :: '~' :: natDigitsZ n) =
      some (pingObj (String.mk ('~' :: 'h' :: '~' :: natDigitsZ n))) := by
    rw [handlePiece, if_neg (by simp), loadsChars_tilde]
    simp [startsH]
  rw [listenWrites, parse_messages, if_neg (by rw [hdata]; simp),
    if_neg (by rw [hdata]; simp [startsH]), hsplit, List.filterMap_cons,
    show handlePiece ([] : List Char) = none from rfl, List.filterMap_cons,
    hpiece, List.filterMap_nil, List.filterMap_cons]
  rw [if_pos (show isPing (pingObj (String.mk ('~' :: 'h' :: '~' :: natDigitsZ n))) =
    true by rfl)]
  rw [show jget (pingObj (String.mk ('~' :: 'h' :: '~' :: natDigitsZ n))) "data" =
    some (.str (String.mk ('~' :: 'h' :: '~' :: natDigitsZ n))) by rfl]
  rw [show String.mk ('~' :: 'h' :: '~' :: natDigitsZ n) = "~h~" ++ natRepr n from rfl]
  rfl

/-! ## Python value semantics used by the session class -/

/-- Python `==` on the JSON values the handlers compare (`bool` is an `int`
subclass, so `True == 1`); containers compare structurally in Python, but the
handlers only ever compare against strings, so a shallow `false` for
containers of equal shape never arises in the embedded code paths with
string/scalar right-hand sides. -/
def pyEq (a b : JVal) : Bool :=
  match a, b with
  | .null, .null => true
  | .bool x, .bool y => x == y
  | .bool x, .num m => (if x then (1 : Int) else 0) == m
  | .num n, .bool y => n == (if y then (1 : Int) else 0)
  | .num n, .num m => n == m
  | .str s, .str t => s == t
  | _, _ => false

/-- Python hashability of a JSON value (lists and dicts raise `TypeError`
when used as dict keys). -/
def hashable : JVal → Bool
  | .arr _ => false
  | .obj _ => false
  | _ => true

/-- Python truthiness of a JSON value. -/
def truthy : JVal → Bool
  | .null => false
  | .bool b => b
  | .num n => n != 0
  | .str s => s != ""
  | .arr l => !l.isEmpty
  | .obj l => !l.isEmpty

/-! ## `parse_graphic_data` (source lines 60-141) -/

def GRAPHIC_TRANSLATOR : List (String × List (String × String)) :=
  [("extend", [("r", "right"), ("l", "left"), ("b", "both"), ("n", "none")]),
   ("yLoc", [("pr", "price"), ("ab", "abovebar"), ("bl", "belowbar")]),
   ("labelStyle",
    [("n", "none"), ("xcr", "xcross"), ("cr", "cross"), ("tup", "triangleup"),
     ("tdn", "triangledown"), ("flg", "flag"), ("cir", "circle"),
     ("aup", "arrowup"), ("adn", "arrowdown"), ("lup", "label_up"),
     ("ldn", "label_down"), ("llf", "label_left"), ("lrg", "label_right"),
     ("llwlf", "label_lower_left"), ("llwrg", "label_lower_right"),
     ("luplf", "label_upper_left"), ("luprg", "label_upper_right"),
     ("lcn", "label_center"), ("sq", "square"), ("dia", "diamond")]),
   ("lineStyle",
    [("sol", "solid"), ("dot", "dotted"), ("dsh", "dashed"),
     ("al", "arrow_left"), ("ar", "arrow_right"), ("ab", "arrow_both")]),
   ("boxStyle", [("sol", "solid"), ("dot", "dotted"), ("dsh", "dashed")])]

/-- `GRAPHIC_TRANSLATOR[tab].get(v, v)`: only string keys occur in the
tables, an unhashable argument raises `TypeError`. -/
def trGet (tab : String) (v : JVal) : Except Unit JVal :=
  if hashable v then
    .ok (match v with
      | .str s =>
        match dget seq ((dget seq GRAPHIC_TRANSLATOR tab).getD []) s with
        | some t => .str t
        | none => v
      | _ => v)
  else .error ()

/-- `l.get(k)` on an item: `None` (`null`) when the key is missing,
`AttributeError` when the item is not a dict. -/
def pyget (l : JVal) (k : String) : Except Unit JVal :=
  match l with
  | .obj kvs => .ok ((dget seq kvs k).getD .null)
  | _ => .error ()

/-- `isinstance(x, int)` plus the integer value: Python `bool` is an `int`
subclass with values 0/1. -/
def toIntQ : JVal → Option Int
  | .num n => some n
  | .bool b => some (if b then 1 else 0)
  | _ => none

/-- The source's positional resolution
`indexes[x_pos] if isinstance(x_pos, int) and x_pos < len(indexes) else x_pos`
with CPython list-indexing semantics: a negative index counts from the end
and raises `IndexError` below `-len`. -/
def resolveIdx (indexes : List JVal) (x : JVal) : Except Unit JVal :=
  match toIntQ x with
  | some i =>
    if i < (indexes.length : Int) then
      if 0 ≤ i then .ok (indexes.getD i.toNat .null)
      else if 0 ≤ i + (indexes.length : Int) then
        .ok (indexes.getD (i + (indexes.length : Int)).toNat .null)
      else .error ()
    else .ok x
  | none => .ok x

/-- The parsed drawings: only `labels`, `lines` and `boxes` are ever filled
by the source (`tables`, `polygons`, `horizLines`, `horizHists` stay `[]`). -/
structure Graphic where
  labels : List (List (String × JVal))
  lines : List (List (String × JVal))
  boxes : List (List (String × JVal))

/-- One entry of `res['labels']` (source lines 86-100). -/
def labelRow (indexes : List JVal) (l : JVal) : Except Unit (List (String × JVal)) := do
  let xv ← pyget l "x"
  let idv ← pyget l "id"
  let xr ← resolveIdx indexes xv
  let yv ← pyget l "y"
  let ylv ← pyget l "yl"
  let yl ← trGet "yLoc" ylv
  let tv ← pyget l "t"
  let stv ← pyget l "st"
  let sty ← trGet "labelStyle" stv
  let civ ← pyget l "ci"
  let tciv ← pyget l "tci"
  let szv ← pyget l "sz"
  let tav ← pyget l "ta"
  let ttv ← pyget l "tt"
  .ok [("id", idv), ("x", xr), ("y", yv), ("yLoc", yl), ("text", tv),
       ("style", sty), ("color", civ), ("textColor", tciv), ("size", szv),
       ("textAlign", tav), ("toolTip", ttv)]

/-- One entry of `res['lines']` (source lines 103-116). -/
def lineRow (indexes : List JVal) (l : JVal) : Except Unit (List (String × JVal)) := do
  let x1v ← pyget l "x1"
  let x2v ← pyget l "x2"
  let idv ← pyget l "id"
  let x1r ← resolveIdx indexes x1v
  let y1v ← pyget l "y1"
  let x2r ← resolveIdx indexes x2v
  let y2v ← pyget l "y2"
  let exv ← pyget l "ex"
  let exr ← trGet "extend" exv
  let stv ← pyget l "st"
  let sty ← trGet "lineStyle" stv
  let civ ← pyget l "ci"
  let wv ← pyget l "w"
  .ok [("id", idv), ("x1", x1r), ("y1", y1v), ("x2", x2r), ("y2", y2v),
       ("extend", exr), ("style", sty), ("color", civ), ("width", wv)]

/-- One entry of `res['boxes']` (source lines 119-139). -/
def boxRow (indexes : List JVal) (b : JVal) : Except Unit (List (String × JVal)) := do
  let x1v ← pyget b "x1"
  let x2v ← pyget b "x2"
  let idv ← pyget b "id"
  let x1r ← resolveIdx indexes x1v
  let y1v ← pyget b "y1"
  let x2r ← resolveIdx indexes x2v
  let y2v ← pyget b "y2"
  let cv ← pyget b "c"
  let bcv ← pyget b "bc"
  let exv ← pyget b "ex"
  let exr ← trGet "extend" exv
  let stv ← pyget b "st"
  let sty ← trGet "boxStyle" stv
  let wv ← pyget b "w"
  let tv ← pyget b "t"
  let tsv ← pyget b "ts"
  let tcv ← pyget b "tc"
  let tvav ← pyget b "tva"
  let thav ← pyget b "tha"
  let twv ← pyget b "tw"
  .ok [("id", idv), ("x1", x1r), ("y1", y1v), ("x2", x2r), ("y2", y2v),
       ("color", cv), ("bgColor", bcv), ("extend", exr), ("style", sty),
       ("width", wv), ("text", tv), ("textSize", tsv), ("textColor", tcv),
       ("textVAlign", tvav), ("textHAlign", thav), ("textWrap", twv)]

/-- `List.mapM` for `Except Unit`, kept first-order for rewriting. -/
def mapExcept (f : α → Except Unit β) : List α → Except Unit (List β)
  | [] => .ok []
  | a :: as =>
    match f a with
    | .error e => .error e
    | .ok b =>
      match mapExcept f as with
      | .error e => .error e
      | .ok bs => .ok (b :: bs)

/-- The raw drawings of one study: `draw_type -> {id -> item}`; draw types
and ids are JSON values (ids come from `item["id"]`). -/
def GraphicsRaw1 := List (JVal × List (JVal × JVal))

/-- Python `parse_graphic_data(raw_graphic, indexes)` over the values of
`dwglabels` / `dwglines` / `dwgboxes` in insertion order. -/
def parse_graphic_data (raw : GraphicsRaw1) (indexes : List JVal) :
    Except Unit Graphic := do
  let labels ← mapExcept (labelRow indexes)
    (((dget pyEq raw (.str "dwglabels")).getD []).map Prod.snd)
  let lns ← mapExcept (lineRow indexes)
    (((dget pyEq raw (.str "dwglines")).getD []).map Prod.snd)
  let boxes ← mapExcept (boxRow indexes)
    (((dget pyEq raw (.str "dwgboxes")).getD []).map Prod.snd)
  .ok ⟨labels, lns, boxes⟩

/-- C5 (amended): positional fields `x`/`x1`/`x2` of labels, lines and boxes
are resolved through `resolveIdx`: a non-negative integer below the index
array's length becomes the array element at that position, a non-integer or
an integer at least the length passes through unchanged.  (Negative integers
are also `< len` but follow CPython indexing instead — see the
counterexample.) -/
theorem graphic_position_resolution (indexes : List JVal) :
    (∀ n : Int, 0 ≤ n → n < (indexes.length : Int) →
      resolveIdx indexes (.num n) = .ok (indexes.getD n.toNat .null)) ∧
    (∀ x, toIntQ x = none → resolveIdx indexes x = .ok x) ∧
    (∀ n : Int, (indexes.length : Int) ≤ n →
      resolveIdx indexes (.num n) = .ok (.num n)) ∧
    (∀ l row, labelRow indexes l = .ok row →
      ∃ xv r, pyget l "x" = .ok xv ∧ resolveIdx indexes xv = .ok r ∧
        dget seq row "x" = some r) ∧
    (∀ l row, lineRow indexes l = .ok row →
      ∃ x1v x2v r1 r2, pyget l "x1" = .ok x1v ∧ pyget l "x2" = .ok x2v ∧
        resolveIdx indexes x1v = .ok r1 ∧ resolveIdx indexes x2v = .ok r2 ∧
        dget seq row "x1" = some r1 ∧ dget seq row "x2" = some r2) ∧
    (∀ b row, boxRow indexes b = .ok row →
      ∃ x1v x2v r1 r2, pyget b "x1" = .ok x1v ∧ pyget b "x2" = .ok x2v ∧
        resolveIdx indexes x1v = .ok r1 ∧ resolveIdx indexes x2v = .ok r2 ∧
        dget seq row "x1" = some r1 ∧ dget seq row "x2" = some r2) := by
  refine ⟨?_, ?_, ?_, ?_, ?_, ?_⟩
  · intro n h0 hlt
    rw [resolveIdx]
    simp only [toIntQ]
    rw [if_pos hlt, if_pos h0]
  · intro x hx
    rw [resolveIdx, hx]
  · intro n hge
    rw [resolveIdx]
    simp only [toIntQ]
    rw [if_neg (by omega)]
  · intro l row h
    cases l <;> simp only [labelRow, pyget, bind, Except.bind] at h <;>
      try exact absurd h (by simp)
    next kvs =>
      split at h
      · exact absurd h (by simp)
      next xr hxr =>
        split at h
        · exact absurd h (by simp)
        next yl hyl =>
          split at h
          · exact absurd h (by simp)
          next sty hsty =>
            injection h with h
            subst h
            exact ⟨_, xr, rfl, hxr, by simp [dget, seq]⟩
  · intro l row h
    cases l <;> simp only [lineRow, pyget, bind, Except.bind] at h <;>
      try exact absurd h (by simp)
    next kvs =>
      split at h
      · exact absurd h (by simp)
      next x1r hx1 =>
        split at h
        · exact absurd h (by simp)
        next x2r hx2 =>
          split at h
          · exact absurd h (by simp)
          next exr hex =>
            split at h
            · exact absurd h (by simp)
            next sty hsty =>
              injection h with h
              subst h
              exact ⟨_, _, x1r, x2r, rfl, rfl, hx1, hx2, by simp [dget, seq],
                by simp [dget, seq]⟩
  · intro b row h
    cases b <;> simp only [boxRow, pyget, bind, Except.bind] at h <;>
      try exact absurd h (by simp)
    next kvs =>
      split at h
      · exact absurd h (by simp)
      next x1r hx1 =>
        split at h
        · exact absurd h (by simp)
        next x2r hx2 =>
          split at h
          · exact absurd h (by simp)
          next exr hex =>
            split at h
            · exact absurd h (by simp)
            next sty hsty =>
              injection h with h
              subst h
              exact ⟨_, _, x1r, x2r, rfl, rfl, hx1, hx2, by simp [dget, seq],
                by simp [dget, seq]⟩

/-- Witness for C5's corrected statement at concrete inputs. -/
theorem graphic_position_resolution_witness :
    resolveIdx [JVal.num 7, JVal.num 9] (JVal.num 1) = .ok (JVal.num 9) ∧
    resolveIdx [JVal.num 7, JVal.num 9] (JVal.str "a") = .ok (JVal.str "a") ∧
    resolveIdx [JVal.num 7, JVal.num 9] (JVal.num 5) = .ok (JVal.num 5) ∧
    (∃ xv r, pyget (JVal.obj [("x", JVal.num 0)]) "x" = .ok xv ∧
      resolveIdx [JVal.num 7, JVal.num 9] xv = .ok r ∧
      dget seq [("id", JVal.null), ("x", JVal.num 7), ("y", JVal.null),
        ("yLoc", JVal.null), ("text", JVal.null), ("style", JVal.null),
        ("color", JVal.null), ("textColor", JVal.null), ("size", JVal.null),
        ("textAlign", JVal.null), ("toolTip", JVal.null)] "x" = some r) :=
  ⟨(graphic_position_resolution [JVal.num 7, JVal.num 9]).1 1 (by decide) (by decide),
   (graphic_position_resolution [JVal.num 7, JVal.num 9]).2.1 (JVal.str "a") rfl,
   (graphic_position_resolution [JVal.num 7, JVal.num 9]).2.2.1 5 (by decide),
   (graphic_position_resolution [JVal.num 7, JVal.num 9]).2.2.2.1
     (JVal.obj [("x", JVal.num 0)]) _ rfl⟩

/-- C5 as literally stated is false: `-4` is an integer strictly below the
length `3`, yet the code raises `IndexError` (there is no element at that
position) instead of substituting or passing it through. -/
theorem graphic_position_resolution_counterexample :
    labelRow [JVal.num 10, JVal.num 20, JVal.num 30]
        (JVal.obj [("x", JVal.num (-4))]) = .error () ∧
    ((-4 : Int) < (([JVal.num 10, JVal.num 20, JVal.num 30].length : Nat) : Int)) :=
  ⟨rfl, by decide⟩

/-! ## `get_mapped_indicator_data` (source lines 363-376) -/

/-- `dict[k] = v` with Python key semantics: unhashable keys raise
`TypeError`. -/
def dsetH (d : List (JVal × JVal)) (k v : JVal) : Except Unit (List (JVal × JVal)) :=
  if hashable k then .ok (dset pyEq d k v) else .error ()

/-- The column of position `i`: `plot_names[i]` when `i < len(plot_names)`,
`plot_{i-1}` otherwise (source lines 373-374). -/
def colName (names : List JVal) (i : Nat) : JVal :=
  if h : i < names.length then names.get ⟨i, h⟩
  else .str ("plot_" ++ natRepr (i - 1))

/-- The mapping loop body over `enumerate(row)`. -/
def mapRowGo (plot_names : List JVal) : Nat → List JVal → List (JVal × JVal) →
    Except Unit (List (JVal × JVal))
  | _, [], acc => .ok acc
  | i, v :: vs, acc => do
    let acc2 ← dsetH acc (colName plot_names i) v
    mapRowGo plot_names (i + 1) vs acc2

/-- One raw row mapped to `{col_i: row_i}` (source lines 371-374); rows the
server sends are JSON arrays, the model keeps only those (a non-array row
would be enumerated character- or key-wise by Python). -/
def mapRow (plot_names : List JVal) (row : JVal) : Except Unit (List (JVal × JVal)) :=
  match row with
  | .arr vs => mapRowGo plot_names 0 vs []
  | _ => .error ()

/-- `.values()` of the metadata's `plots` dict; `AttributeError` when the
value is not a dict. -/
def pyDictValues : JVal → Except Unit (List JVal)
  | .obj kvs => .ok (kvs.map Prod.snd)
  | _ => .error ()

/-- Python `get_mapped_indicator_data(study_id, indicator_metadata)` against
an `indicator_data` store. -/
def get_mapped_indicator_data (indicator_data : List (String × List JVal))
    (study_id : String) (meta : List (String × JVal)) :
    Except Unit (List (List (JVal × JVal))) :=
  match (dget seq indicator_data study_id).getD [] with
  | [] => .ok []
  | r :: rs => do
    let pvals ← pyDictValues ((dget seq meta "plots").getD (.obj []))
    mapExcept (mapRow (JVal.str "timestamp" :: pvals)) (r :: rs)

/-- The row a raw array maps to when no two of its columns collide. -/
def namedRow (names : List JVal) : Nat → List JVal → List (JVal × JVal)
  | _, [] => []
  | i, v :: vs => (colName names i, v) :: namedRow names (i + 1) vs

theorem dset_freshP {acc : List (JVal × JVal)} {k v : JVal}
    (h : dmem pyEq acc k = false) : dset pyEq acc k v = acc ++ [(k, v)] := by
  induction acc with
  | nil => rfl
  | cons kv rest ih =>
    obtain ⟨k', v'⟩ := kv
    simp only [dmem, Bool.or_eq_false_iff] at h
    rw [dset, h.1]
    simp [ih h.2]

theorem mapRowGo_named (names : List JVal) : ∀ (vs : List JVal) (i : Nat)
    (acc : List (JVal × JVal)),
    (∀ j, j < vs.length → hashable (colName names (i + j)) = true) →
    (∀ j, j < vs.length →
      dmem pyEq (acc ++ namedRow names i (vs.take j)) (colName names (i + j)) = false) →
    mapRowGo names i vs acc = .ok (acc ++ namedRow names i vs) := by
  intro vs
  induction vs with
  | nil =>
    intro i acc _ _
    simp [mapRowGo, namedRow]
  | cons v vs ih =>
    intro i acc hh hm
    have h0 := hh 0 (by simp)
    have hm0 := hm 0 (by simp)
    simp only [Nat.add_zero] at h0
    simp only [List.take_zero, namedRow, List.append_nil, Nat.add_zero] at hm0
    rw [mapRowGo]
    simp only [bind, Except.bind, dsetH, if_pos h0, dset_freshP hm0]
    rw [ih (i + 1) (acc ++ [(colName names i, v)])
      (fun j hj => by
        have := hh (j + 1) (by simp only [List.length_cons]; omega)
        rwa [show i + (j + 1) = i + 1 + j by omega] at this)
      (fun j hj => by
        have := hm (j + 1) (by simp only [List.length_cons]; omega)
        rw [show i + (j + 1) = i + 1 + j by omega] at this
        simp only [List.take_succ_cons, namedRow] at this
        simp only [List.append_assoc, List.cons_append, List.nil_append] at this ⊢
        exact this)]
    rw [namedRow]
    simp

theorem mapExcept_rows (names : List JVal) : ∀ rs : List (List JVal),
    (∀ vs ∈ rs, ∀ j, j < vs.length → hashable (colName names j) = true) →
    (∀ vs ∈ rs, ∀ j, j < vs.length →
      dmem pyEq (namedRow names 0 (vs.take j)) (colName names j) = false) →
    mapExcept (mapRow names) (rs.map JVal.arr) = .ok (rs.map (namedRow names 0)) := by
  intro rs
  induction rs with
  | nil => intro _ _; rfl
  | cons vs rs ih =>
    intro hh hm
    rw [List.map_cons, mapExcept, mapRow,
      mapRowGo_named names vs 0 []
        (fun j hj => by simpa using hh vs (by simp) j hj)
        (fun j hj => by simpa using hm vs (by simp) j hj),
      ih (fun w hw => hh w (by simp [hw])) (fun w hw => hm w (by simp [hw]))]
    simp


/-! ## `create_study` (source lines 215-241): the inputs overlay and what the
caller's `indicator_metadata` looks like after the call.

CPython's `dict.copy()` at line 223 is shallow: `final_inputs[k]` is the very
object stored in `indicator_metadata["inputs"][k]`, so line 227's
`final_inputs[k]["value"] = v` writes through the shared reference into the
caller's mapping.  `create_study_metaAfter` computes the caller-visible value
of `indicator_metadata` after the call returns. -/

/-- Line 224-227: overlay `custom_inputs` onto the (shared) input entries;
`final_inputs[k]["value"] = v` raises `TypeError` when the entry is not a
dict. -/
def applyCustom (ikvs : List (String × JVal)) :
    List (String × JVal) → Except Unit (List (String × JVal))
  | [] => .ok ikvs
  | (k, v) :: rest =>
    if dmem seq ikvs k then
      match dget seq ikvs k with
      | some (.obj entry) =>
        applyCustom (dset seq ikvs k (.obj (dset seq entry "value" v))) rest
      | _ => .error ()
    else applyCustom ikvs rest

/-- The caller's `indicator_metadata` after `create_study(study_id, meta,
custom)` returns: when `meta` has an `"inputs"` dict, its entries named by
`custom` keys have had their `"value"` field overwritten in place. -/
def create_study_metaAfter (meta custom : List (String × JVal)) :
    Except Unit (List (String × JVal)) :=
  match dget seq meta "inputs" with
  | some (.obj ikvs) =>
    match applyCustom ikvs custom with
    | .ok ikvs2 => .ok (dset seq meta "inputs" (.obj ikvs2))
    | .error e => .error e
  | _ => .ok meta

/-- C8 is a code bug: after `create_study` with `custom_inputs = {len: 20}`,
the caller's `indicator_metadata.inputs.len.value` has changed from 14 to 20
— the copy at line 223 is shallow, not deep. -/
theorem create_study_mutates_caller_metadata :
    create_study_metaAfter
        [("script", JVal.str "s"),
         ("inputs", JVal.obj [("len", JVal.obj [("value", JVal.num 14)])])]
        [("len", JVal.num 20)] =
      .ok [("script", JVal.str "s"),
           ("inputs", JVal.obj [("len", JVal.obj [("value", JVal.num 20)])])] ∧
    ¬ ([("script", JVal.str "s"),
        ("inputs", JVal.obj [("len", JVal.obj [("value", JVal.num 20)])])] =
       [("script", JVal.str "s"),
        ("inputs", JVal.obj [("len", JVal.obj [("value", JVal.num 14)])])]) :=
  ⟨rfl, by simp⟩

/-! ## The session state and `on_message` (source lines 398-465)

Modelling notes, matching CPython semantics statement by statement:
mutations happen in place, so when a statement raises, everything already
appended or assigned stays; the `try` at lines 429-451 swallows everything
raised inside it; exceptions of the mapping loop at 455-457 are *not*
caught and propagate to `listen`.  Protocol payloads are JSON arrays and
objects; where the code would iterate or subscript a value of a shape the
server never sends (e.g. `p[1]` on a string, `len()` of a string index
store), the model treats it as the raising case. -/

structure ExtState where
  running : Bool
  ohlc : List JVal
  indicator_data : List (String × List JVal)
  graphics_raw : List (String × GraphicsRaw1)
  graphics_indexes : JVal
  error_occurred : Bool
  loaded_indicators : List (String × List (String × JVal))

/-- The value of one `extracted_update['indicators']` entry: the raw appended
rows, replaced by the mapped rows at lines 455-457 when metadata is known. -/
inductive IndOut where
  | raw (rows : List JVal)
  | mapped (rows : List (List (JVal × JVal)))

/-- `extracted_update` (line 406). -/
structure Extracted where
  ohlc : List JVal
  indicators : List (String × IndOut)
  graphics : List (String × Graphic)

/-- `key.startswith("st")`. -/
def startsST (s : String) : Bool :=
  match s.data with
  | 's' :: 't' :: _ => true
  | _ => false

/-- Lines 410-412: collect `p_item['v']` until a non-dict or `'v'`-less item
raises; earlier appends persist. -/
def pricesLoop : List JVal → List JVal × Bool
  | [] => ([], false)
  | item :: rest =>
    match item with
    | .obj kvs =>
      match dget seq kvs "v" with
      | some v =>
        let (vs, r) := pricesLoop rest
        (v :: vs, r)
      | none => ([], true)
    | _ => ([], true)

/-- Lines 408-412: the `$prices` block. -/
def pricesPart (dkvs : List (String × JVal)) : List JVal × Bool :=
  if dmem seq dkvs "$prices" then
    match (dget seq dkvs "$prices").getD .null with
    | .obj pkvs =>
      match (dget seq pkvs "s").getD (.arr []) with
      | .arr items => pricesLoop items
      | .obj [] => ([], false)
      | .str "" => ([], false)
      | _ => ([], true)
    | _ => ([], true)
  else ([], false)

/-- Lines 419-422: collect `st_item["v"]`. -/
def stVals : List JVal → List JVal × Bool
  | [] => ([], false)
  | item :: rest =>
    match item with
    | .obj kvs =>
      match dget seq kvs "v" with
      | some v =>
        let (vs, r) := stVals rest
        (v :: vs, r)
      | none => ([], true)
    | _ => ([], true)

/-- Lines 417-422: the `st` rows of one study. -/
def studyStRows (st : ExtState) (ex : Extracted) (key : String)
    (vkvs : List (String × JVal)) : ExtState × Extracted × Bool :=
  if dmem seq vkvs "st" && truthy ((dget seq vkvs "st").getD .null) then
    match (dget seq vkvs "st").getD .null with
    | .arr sitems =>
      let rows0 := (dget seq st.indicator_data key).getD []
      let (vals, r) := stVals sitems
      let ind2 := dset seq st.indicator_data key (rows0 ++ vals)
      let st2 := { st with indicator_data := ind2 }
      let exRows : List JVal :=
        match dget seq ex.indicators key with
        | some (.raw rows) => rows
        | _ => []
      let exInd2 := dset seq ex.indicators key (.raw (exRows ++ vals))
      let ex2 := if vals.isEmpty then ex else { ex with indicators := exInd2 }
      (st2, ex2, r)
    | _ => (st, ex, true)
  else (st, ex, false)

/-- Lines 426-427: the index-array replacement. -/
def nsIndexes (st : ExtState) (nkvs : List (String × JVal)) : ExtState :=
  match dget seq nkvs "indexes" with
  | some iv =>
    if pyEq iv (.str "nochange") then st else { st with graphics_indexes := iv }
  | none => st

/-- One element of `graphics_cmds.get("erase", [])` (lines 434-441). -/
def eraseStep (inner : GraphicsRaw1) (e : JVal) : Except Unit GraphicsRaw1 :=
  match e with
  | .obj ekvs =>
    let action := (dget seq ekvs "action").getD .null
    let dtype := (dget seq ekvs "type").getD .null
    if pyEq action (.str "all") then
      if truthy dtype then
        if hashable dtype then .ok (dset pyEq inner dtype []) else .error ()
      else .ok []
    else if pyEq action (.str "one") then
      if hashable dtype then
        if dmem pyEq inner dtype then
          let eid := (dget seq ekvs "id").getD .null
          if hashable eid then
            .ok (dset pyEq inner dtype (dpop pyEq ((dget pyEq inner dtype).getD []) eid))
          else .error ()
        else .ok inner
      else .error ()
    else .ok inner
  | _ => .error ()

def eraseLoop (inner : GraphicsRaw1) : List JVal → GraphicsRaw1 × Bool
  | [] => (inner, false)
  | e :: rest =>
    match eraseStep inner e with
    | .ok inner2 => eraseLoop inner2 rest
    | .error _ => (inner, true)

/-- Line 446: store created items by `item["id"]`. -/
def itemLoop (d : List (JVal × JVal)) : List JVal → List (JVal × JVal) × Bool
  | [] => (d, false)
  | item :: rest =>
    match item with
    | .obj ikvs =>
      match dget seq ikvs "id" with
      | some idv =>
        if hashable idv then itemLoop (dset pyEq d idv item) rest
        else (d, true)
      | none => (d, true)
    | _ => (d, true)

/-- Lines 445-446: the groups of one created draw type. -/
def groupLoop (inner : GraphicsRaw1) (dtype : JVal) : List JVal → GraphicsRaw1 × Bool
  | [] => (inner, false)
  | g :: rest =>
    match g with
    | .obj gkvs =>
      match (dget seq gkvs "data").getD (.arr []) with
      | .arr items =>
        let (d1, r) := itemLoop ((dget pyEq inner dtype).getD []) items
        let inner2 := dset pyEq inner dtype d1
        if r then (inner2, true) else groupLoop inner2 dtype rest
      | .obj [] => groupLoop inner dtype rest
      | .str "" => groupLoop inner dtype rest
      | _ => (inner, true)
    | _ => (inner, true)

/-- Lines 443-446: `create.items()`. -/
def createLoop (inner : GraphicsRaw1) : List (String × JVal) → GraphicsRaw1 × Bool
  | [] => (inner, false)
  | (dtype, groups) :: rest =>
    let inner1 := if dmem pyEq inner (.str dtype) then inner
      else dset pyEq inner (.str dtype) []
    match groups with
    | .arr gs =>
      let (inner2, r) := groupLoop inner1 (.str dtype) gs
      if r then (inner2, true) else createLoop inner2 rest
    | .obj [] => createLoop inner1 rest
    | .str "" => createLoop inner1 rest
    | _ => (inner1, true)

def tryErase (inner : GraphicsRaw1) (ev : JVal) : GraphicsRaw1 × Bool :=
  match ev with
  | .arr es => eraseLoop inner es
  | .obj [] => (inner, false)
  | .str "" => (inner, false)
  | _ => (inner, true)

def tryCreate (inner : GraphicsRaw1) (cv : JVal) : GraphicsRaw1 × Bool :=
  match cv with
  | .obj ckvs => createLoop inner ckvs
  | _ => (inner, true)

/-- Lines 432-449 after `graphics_cmds` proved truthy; everything here is
inside the `try`, so a raise just stops early with the mutations so far. -/
def tryGraphics (st : ExtState) (ex : Extracted) (key : String) (gc : JVal) :
    ExtState × Extracted :=
  let gr1 := if dmem seq st.graphics_raw key then st.graphics_raw
    else dset seq st.graphics_raw key []
  let st1 := { st with graphics_raw := gr1 }
  match gc with
  | .obj gckvs =>
    let inner0 := (dget seq gr1 key).getD []
    let (inner1, r1) := tryErase inner0 ((dget seq gckvs "erase").getD (.arr []))
    let st2 := { st1 with graphics_raw := dset seq gr1 key inner1 }
    if r1 then (st2, ex)
    else
      let (inner2, r2) := tryCreate inner1 ((dget seq gckvs "create").getD (.obj []))
      let st3 := { st1 with graphics_raw := dset seq gr1 key inner2 }
      if r2 then (st3, ex)
      else
        match st3.graphics_indexes with
        | .arr idx =>
          match parse_graphic_data ((dget seq st3.graphics_raw key).getD []) idx with
          | .ok g => (st3, { ex with graphics := dset seq ex.graphics key g })
          | .error _ => (st3, ex)
        | _ => (st3, ex)
  | _ => (st1, ex)

/-- Lines 428-451: the `try`/`except` over `json.loads(ns["d"])`. -/
def tryNsD (st : ExtState) (ex : Extracted) (key : String) (dv : JVal) :
    ExtState × Extracted :=
  match dv with
  | .str s =>
    match loads s with
    | some nsd =>
      match nsd with
      | .obj nskvs =>
        match dget seq nskvs "graphicsCmds" with
        | some gc => if truthy gc then tryGraphics st ex key gc else (st, ex)
        | none => (st, ex)
      | _ => (st, ex)
    | none => (st, ex)
  | _ => (st, ex)

/-- Lines 416-451: one study entry of the data dict. -/
def studyStep (st : ExtState) (ex : Extracted) (key : String)
    (vkvs : List (String × JVal)) : ExtState × Extracted × Bool :=
  let r := studyStRows st ex key vkvs
  if r.2.2 then (r.1, r.2.1, true)
  else
    match dget seq vkvs "ns" with
    | some (.obj nkvs) =>
      let st2 := nsIndexes r.1 nkvs
      match dget seq nkvs "d" with
      | some dv =>
        if truthy dv then
          let t := tryNsD st2 r.2.1 key dv
          (t.1, t.2, false)
        else (st2, r.2.1, false)
      | none => (st2, r.2.1, false)
    | _ => (r.1, r.2.1, false)

/-- `isinstance(val, dict)` with the dict's pairs. -/
def asObj : JVal → Option (List (String × JVal))
  | .obj kvs => some kvs
  | _ => none

/-- Lines 414-451: `for key, val in data.items()`. -/
def studiesLoop (st : ExtState) (ex : Extracted) :
    List (String × JVal) → ExtState × Extracted × Bool
  | [] => (st, ex, false)
  | (key, val) :: rest =>
    match asObj val with
    | some vkvs =>
      if startsST key then
        let r := studyStep st ex key vkvs
        if r.2.2 then (r.1, r.2.1, true) else studiesLoop r.1 r.2.1 rest
      else studiesLoop st ex rest
    | none => studiesLoop st ex rest

/-- Lines 455-457: replace each dispatched indicator entry whose study has
metadata by the mapped full history; raises here are not caught. -/
def mapIndicators (st : ExtState) :
    List (String × IndOut) → Except Unit (List (String × IndOut))
  | [] => .ok []
  | (sid, out) :: rest =>
    match dget seq st.loaded_indicators sid with
    | some meta =>
      match get_mapped_indicator_data st.indicator_data sid meta with
      | .ok mrows =>
        match mapIndicators st rest with
        | .ok rest2 => .ok ((sid, .mapped mrows) :: rest2)
        | .error e => .error e
      | .error e => .error e
    | none =>
      match mapIndicators st rest with
      | .ok rest2 => .ok ((sid, out) :: rest2)
      | .error e => .error e

/-- Lines 404-458: the whole `timescale_update`/`du` branch given `data`. -/
def duData (cb : Bool) (st : ExtState) (dkvs : List (String × JVal)) :
    ExtState × Option Extracted × Bool :=
  let pr := pricesPart dkvs
  let st1 := { st with ohlc := st.ohlc ++ pr.1 }
  if pr.2 then (st1, none, true)
  else
    let r := studiesLoop st1 ⟨pr.1, [], []⟩ dkvs
    if r.2.2 then (r.1, none, true)
    else if cb && (!r.2.1.ohlc.isEmpty || !r.2.1.indicators.isEmpty ||
        !r.2.1.graphics.isEmpty) then
      match mapIndicators r.1 r.2.1.indicators with
      | .ok ind2 => (r.1, some { r.2.1 with indicators := ind2 }, false)
      | .error _ => (r.1, none, true)
    else (r.1, none, false)

/-- Python `on_message(msg)`: final state, dispatched event (if any), and
whether an exception escaped. -/
def on_message (cb : Bool) (st : ExtState) (msg : JVal) :
    ExtState × Option Extracted × Bool :=
  match msg with
  | .obj mkvs =>
    let m_type := (dget seq mkvs "m").getD .null
    let p := (dget seq mkvs "p").getD (.arr [])
    if pyEq m_type (.str "timescale_update") || pyEq m_type (.str "du") then
      match p with
      | .arr l =>
        match l.get? 1 with
        | some data =>
          match data with
          | .obj dkvs => duData cb st dkvs
          | _ => (st, none, true)
        | none => (st, none, true)
      | _ => (st, none, true)
    else if pyEq m_type (.str "critical_error") then
      ({ st with error_occurred := true }, none, false)
    else if pyEq m_type (.str "study_error") then
      match p with
      | .arr l =>
        if 4 ≤ l.length then ({ st with error_occurred := true }, none, false)
        else (st, none, true)
      | _ => (st, none, true)
    else (st, none, false)
  | _ => (st, none, false)

/-- Lines 385-396: one `listen` iteration over the parsed messages of one
received string; an exception from `on_message` sets `running` to `False`
and abandons the rest. -/
def listenMsgs (cb : Bool) (st : ExtState) : List JVal → ExtState × List Extracted
  | [] => (st, [])
  | msg :: rest =>
    if isPing msg then listenMsgs cb st rest
    else
      let r := on_message cb st msg
      if r.2.2 then ({ r.1 with running := false }, [])
      else
        let t := listenMsgs cb r.1 rest
        (t.1, r.2.1.toList ++ t.2)

/-- A sample session state for concrete instantiations. -/
def sampleState : ExtState :=
  ⟨true, [], [], [], .arr [], false, []⟩

/-- C7: mapped rows name their entries by the column list `["timestamp"]`
followed by the plot titles in iteration order, with overflow positions
named `plot_{i-1}`; a study with no raw data yields `[]`; and in the
dispatch mapping loop (lines 455-457) a study with no metadata in
`loaded_indicators` keeps its unmapped raw entry.  (Hypotheses: the stored
rows are JSON arrays, and the relevant columns are hashable and pairwise
non-colliding, which holds for distinct string titles.) -/
theorem get_mapped_indicator_data_columns
    (indicator_data : List (String × List JVal)) (study_id : String)
    (meta : List (String × JVal)) (pl : List (String × JVal))
    (rs : List (List JVal))
    (hplots : dget seq meta "plots" = some (.obj pl))
    (hrows : dget seq indicator_data study_id = some (rs.map JVal.arr))
    (hh : ∀ vs ∈ rs, ∀ j, j < vs.length →
      hashable (colName (JVal.str "timestamp" :: pl.map Prod.snd) j) = true)
    (hm : ∀ vs ∈ rs, ∀ j, j < vs.length →
      dmem pyEq (namedRow (JVal.str "timestamp" :: pl.map Prod.snd) 0 (vs.take j))
        (colName (JVal.str "timestamp" :: pl.map Prod.snd) j) = false) :
    get_mapped_indicator_data indicator_data study_id meta =
      .ok (rs.map (namedRow (JVal.str "timestamp" :: pl.map Prod.snd) 0)) ∧
    (∀ sid, dget seq indicator_data sid = some [] ∨
        dget seq indicator_data sid = none →
      get_mapped_indicator_data indicator_data sid meta = .ok []) ∧
    (∀ (st : ExtState) (sid : String) (out : IndOut)
        (rest rest2 : List (String × IndOut)),
      dget seq st.loaded_indicators sid = none →
      mapIndicators st rest = .ok rest2 →
      mapIndicators st ((sid, out) :: rest) = .ok ((sid, out) :: rest2)) := by
  refine ⟨?_, ?_, ?_⟩
  · rw [get_mapped_indicator_data, hrows]
    cases rs with
    | nil => simp
    | cons vs rs2 =>
      simp only [Option.getD_some, List.map_cons]
      rw [hplots]
      simp only [Option.getD_some, pyDictValues, bind, Except.bind]
      rw [← List.map_cons, mapExcept_rows _ (vs :: rs2) hh hm, List.map_cons]
  · intro sid h
    rcases h with h | h <;> rw [get_mapped_indicator_data, h] <;> rfl
  · intro st sid out rest rest2 h1 h2
    rw [mapIndicators, h1]
    dsimp only
    rw [h2]

/-- Witness for C7 at the spec's scenario D (integer-valued), plus a
metadata-less study passing through the mapping loop unmapped. -/
theorem get_mapped_indicator_data_columns_witness :
    (get_mapped_indicator_data [("st1", [JVal.arr [JVal.num 1700000000, JVal.num 72]])]
        "st1" [("plots", JVal.obj [("p_0", JVal.str "RSI")])] =
      .ok (([[JVal.num 1700000000, JVal.num 72]] : List (List JVal)).map
        (namedRow (JVal.str "timestamp" :: ([("p_0", JVal.str "RSI")] :
          List (String × JVal)).map Prod.snd) 0)) ∧
    (∀ sid, dget seq [("st1", [JVal.arr [JVal.num 1700000000, JVal.num 72]])] sid =
        some [] ∨
        dget seq [("st1", [JVal.arr [JVal.num 1700000000, JVal.num 72]])] sid = none →
      get_mapped_indicator_data [("st1", [JVal.arr [JVal.num 1700000000, JVal.num 72]])]
        sid [("plots", JVal.obj [("p_0", JVal.str "RSI")])] = .ok [])) ∧
    mapIndicators sampleState [("st9", IndOut.raw [JVal.num 1])] =
      .ok [("st9", IndOut.raw [JVal.num 1])] :=
  have h := get_mapped_indicator_data_columns
    [("st1", [JVal.arr [JVal.num 1700000000, JVal.num 72]])] "st1"
    [("plots", JVal.obj [("p_0", JVal.str "RSI")])] [("p_0", JVal.str "RSI")]
    [[JVal.num 1700000000, JVal.num 72]] rfl rfl (by decide) (by decide)
  ⟨⟨h.1, h.2.1⟩, h.2.2 sampleState "st9" (IndOut.raw [JVal.num 1]) [] [] rfl rfl⟩

/-- C9 (amended): a `study_error` whose params list has at least the four
accessed positions does not stop the session and leaves every data store
untouched; what it marks is the single global `error_occurred` flag (the
same one `critical_error` sets), not a per-study marker. -/
theorem study_error_keeps_session (cb : Bool) (st : ExtState)
    (mkvs : List (String × JVal)) (l : List JVal)
    (hm : dget seq mkvs "m" = some (.str "study_error"))
    (hp : dget seq mkvs "p" = some (.arr l))
    (hl : 4 ≤ l.length) :
    on_message cb st (.obj mkvs) = ({ st with error_occurred := true }, none, false) := by
  rw [on_message, hm, hp]
  simp only [Option.getD_some]
  rw [if_neg (by simp [pyEq]), if_neg (by simp [pyEq]), if_pos (by simp [pyEq]),
    if_pos hl]

/-- Witness for C9's corrected statement. -/
theorem study_error_keeps_session_witness :
    on_message true sampleState
        (.obj [("m", JVal.str "study_error"),
               ("p", JVal.arr [JVal.null, JVal.str "st1", JVal.null, JVal.str "r"])]) =
      ({ sampleState with error_occurred := true }, none, false) :=
  study_error_keeps_session true sampleState
    [("m", JVal.str "study_error"),
     ("p", JVal.arr [JVal.null, JVal.str "st1", JVal.null, JVal.str "r"])]
    [JVal.null, JVal.str "st1", JVal.null, JVal.str "r"] rfl rfl (by decide)

/-- C9 as literally stated is false: a `study_error` with too few params
raises in the logging line's `p[1]`/`p[3]`, and `listen` then stops the
session. -/
theorem study_error_keeps_session_counterexample :
    (on_message true sampleState (.obj [("m", JVal.str "study_error"),
        ("p", JVal.arr [])])).2.2 = true ∧
    (listenMsgs true sampleState [.obj [("m", JVal.str "study_error"),
        ("p", JVal.arr [])]]).1.running = false :=
  ⟨rfl, rfl⟩

/-- C10: a `timescale_update`/`du` message whose `p` is absent or shorter
than two entries raises at `data = p[1]` instead of being ignored, and the
`listen` loop then clears `running`, ending the session. -/
theorem du_short_params_kill_session (cb : Bool) (st : ExtState)
    (mkvs : List (String × JVal)) (l : List JVal)
    (hm : dget seq mkvs "m" = some (.str "timescale_update") ∨
      dget seq mkvs "m" = some (.str "du"))
    (hp : dget seq mkvs "p" = none ∨
      (dget seq mkvs "p" = some (.arr l) ∧ l.length < 2))
    (ht : dget seq mkvs "type" = none) :
    (on_message cb st (.obj mkvs)).2.2 = true ∧
    (on_message cb st (.obj mkvs)).1 = st ∧
    listenMsgs cb st [.obj mkvs] = ({ st with running := false }, []) := by
  have hping : isPing (.obj mkvs) = false := by
    rw [isPing, ht]
    rfl
  have hdu : on_message cb st (.obj mkvs) = (st, none, true) := by
    rw [on_message]
    have hcond : (pyEq ((dget seq mkvs "m").getD .null) (.str "timescale_update") ||
        pyEq ((dget seq mkvs "m").getD .null) (.str "du")) = true := by
      rcases hm with hm | hm <;> rw [hm] <;> simp [pyEq]
    rw [if_pos hcond]
    rcases hp with hp | ⟨hp, hlen⟩
    · rw [hp]
      rfl
    · rw [hp]
      simp only [Option.getD_some]
      rw [List.get?_eq_none.mpr (by omega)]
  refine ⟨by rw [hdu], by rw [hdu], ?_⟩
  rw [listenMsgs, hping]
  simp only [Bool.false_eq_true, if_false, hdu]
  rfl

/-- Witness for C10. -/
theorem du_short_params_kill_session_witness :
    (on_message true sampleState (.obj [("m", JVal.str "du")])).2.2 = true ∧
    (on_message true sampleState (.obj [("m", JVal.str "du")])).1 = sampleState ∧
    listenMsgs true sampleState [.obj [("m", JVal.str "du")]] =
      ({ sampleState with running := false }, []) :=
  du_short_params_kill_session true sampleState [("m", JVal.str "du")] []
    (Or.inr rfl) (Or.inl rfl) rfl

theorem tryGraphics_gidx (st : ExtState) (ex : Extracted) (key : String) (gc : JVal) :
    (tryGraphics st ex key gc).1.graphics_indexes = st.graphics_indexes := by
  cases gc <;> try rfl
  next gckvs =>
    delta tryGraphics
    dsimp only
    repeat' split
    all_goals rfl

theorem tryNsD_gidx (st : ExtState) (ex : Extracted) (key : String) (dv : JVal) :
    (tryNsD st ex key dv).1.graphics_indexes = st.graphics_indexes := by
  cases dv <;> try rfl
  next s =>
    delta tryNsD
    dsimp only
    repeat' split
    all_goals first
    | rfl
    | exact tryGraphics_gidx _ _ _ _

theorem studyStRows_gidx (st : ExtState) (ex : Extracted) (key : String)
    (vkvs : List (String × JVal)) :
    (studyStRows st ex key vkvs).1.graphics_indexes = st.graphics_indexes := by
  rw [studyStRows]
  split
  · split <;> rfl
  · rfl

theorem nsIndexes_nochange (st : ExtState) (nkvs : List (String × JVal))
    (h : dget seq nkvs "indexes" = none ∨
      dget seq nkvs "indexes" = some (.str "nochange")) :
    nsIndexes st nkvs = st := by
  rw [nsIndexes]
  rcases h with h | h <;> rw [h]
  simp [pyEq]

theorem studyStep_gidx (st : ExtState) (ex : Extracted) (key : String)
    (vkvs : List (String × JVal))
    (h : ∀ nkvs, dget seq vkvs "ns" = some (.obj nkvs) →
      dget seq nkvs "indexes" = none ∨
      dget seq nkvs "indexes" = some (.str "nochange")) :
    (studyStep st ex key vkvs).1.graphics_indexes = st.graphics_indexes := by
  rw [studyStep]
  dsimp only
  split
  · exact studyStRows_gidx _ _ _ _
  · split
    · next nkvs hns =>
      rw [nsIndexes_nochange _ _ (h _ hns)]
      split
      · split
        · exact (tryNsD_gidx _ _ _ _).trans (studyStRows_gidx _ _ _ _)
        · exact studyStRows_gidx _ _ _ _
      · exact studyStRows_gidx _ _ _ _
    · exact studyStRows_gidx _ _ _ _

theorem studiesLoop_gidx : ∀ (entries : List (String × JVal)) (st : ExtState)
    (ex : Extracted),
    (∀ key vkvs, (key, JVal.obj vkvs) ∈ entries → ∀ nkvs,
      dget seq vkvs "ns" = some (.obj nkvs) →
      dget seq nkvs "indexes" = none ∨
      dget seq nkvs "indexes" = some (.str "nochange")) →
    (studiesLoop st ex entries).1.graphics_indexes = st.graphics_indexes := by
  intro entries
  induction entries with
  | nil => intro st ex _; rfl
  | cons kv rest ih =>
    intro st ex h
    obtain ⟨key, val⟩ := kv
    have hrest : ∀ key vkvs, (key, JVal.obj vkvs) ∈ rest → ∀ nkvs,
        dget seq vkvs "ns" = some (.obj nkvs) →
        dget seq nkvs "indexes" = none ∨
        dget seq nkvs "indexes" = some (.str "nochange") :=
      fun k v hv => h k v (by simp [hv])
    rw [studiesLoop]
    cases hv : asObj val with
    | none => exact ih st ex hrest
    | some vkvs =>
      have hval : val = JVal.obj vkvs := by
        cases val <;> simp [asObj] at hv <;> simp [hv]
      dsimp only
      split
      · split
        · exact studyStep_gidx st ex key vkvs (h key vkvs (by simp [hval]))
        · exact (ih _ _ hrest).trans
            (studyStep_gidx st ex key vkvs (h key vkvs (by simp [hval])))
      · exact ih st ex hrest

theorem duData_gidx (cb : Bool) (st : ExtState) (dkvs : List (String × JVal))
    (h : ∀ key vkvs, (key, JVal.obj vkvs) ∈ dkvs → ∀ nkvs,
      dget seq vkvs "ns" = some (.obj nkvs) →
      dget seq nkvs "indexes" = none ∨
      dget seq nkvs "indexes" = some (.str "nochange")) :
    (duData cb st dkvs).1.graphics_indexes = st.graphics_indexes := by
  rw [duData]
  dsimp only
  split
  · rfl
  · split
    · exact studiesLoop_gidx dkvs _ _ h
    · split
      · split
        · exact studiesLoop_gidx dkvs _ _ h
        · exact studiesLoop_gidx dkvs _ _ h
      · exact studiesLoop_gidx dkvs _ _ h

theorem startsST_ne_prices {key : String} (h : startsST key = true) :
    seq key "$prices" = false := by
  rw [seq]
  simp only [decide_eq_false_iff_not]
  intro he
  subst he
  exact absurd h (by decide)

theorem studyStep_sets_gidx (st : ExtState) (ex : Extracted) (key : String)
    (vkvs nkvs : List (String × JVal)) (iv : JVal)
    (hst : dmem seq vkvs "st" = false)
    (hns : dget seq vkvs "ns" = some (.obj nkvs))
    (hidx : dget seq nkvs "indexes" = some iv)
    (hnc : pyEq iv (.str "nochange") = false) :
    (studyStep st ex key vkvs).1.graphics_indexes = iv ∧
    (studyStep st ex key vkvs).2.2 = false := by
  have hrows : studyStRows st ex key vkvs = (st, ex, false) := by
    rw [studyStRows, hst]
    simp
  have hni : nsIndexes st nkvs = { st with graphics_indexes := iv } := by
    rw [nsIndexes, hidx]
    simp [hnc]
  rw [studyStep, hrows]
  dsimp only
  rw [hns]
  dsimp only
  rw [hni]
  cases hd : dget seq nkvs "d" with
  | none => exact ⟨rfl, rfl⟩
  | some dv =>
    dsimp only
    by_cases htr : truthy dv = true
    · rw [if_pos htr]
      exact ⟨tryNsD_gidx _ _ _ _, rfl⟩
    · rw [if_neg htr]
      exact ⟨rfl, rfl⟩

/-- C3: within a `timescale_update`/`du` message, the global graphics index
array is left untouched whenever every study's `ns.indexes` is absent or the
sentinel `"nochange"`, and it is replaced exactly when `ns.indexes` is
present and differs from the sentinel (shown for a single-study message). -/
theorem indexes_nochange_preserved (cb : Bool) (st : ExtState)
    (mkvs : List (String × JVal)) (l : List JVal) (dkvs : List (String × JVal))
    (hm : dget seq mkvs "m" = some (.str "timescale_update") ∨
      dget seq mkvs "m" = some (.str "du"))
    (hp : dget seq mkvs "p" = some (.arr l))
    (hdata : l.get? 1 = some (.obj dkvs)) :
    ((∀ key vkvs, (key, JVal.obj vkvs) ∈ dkvs → ∀ nkvs,
        dget seq vkvs "ns" = some (.obj nkvs) →
        dget seq nkvs "indexes" = none ∨
        dget seq nkvs "indexes" = some (.str "nochange")) →
      (on_message cb st (.obj mkvs)).1.graphics_indexes = st.graphics_indexes) ∧
    (∀ key vkvs nkvs iv,
      dkvs = [(key, .obj vkvs)] → startsST key = true →
      dmem seq vkvs "st" = false →
      dget seq vkvs "ns" = some (.obj nkvs) →
      dget seq nkvs "indexes" = some iv →
      pyEq iv (.str "nochange") = false →
      (on_message cb st (.obj mkvs)).1.graphics_indexes = iv) := by
  have hred : on_message cb st (.obj mkvs) = duData cb st dkvs := by
    rcases hm with hm | hm <;>
      rw [on_message, hm, hp] <;>
      simp only [Option.getD_some] <;>
      rw [if_pos (by simp [pyEq])] <;>
      rw [hdata]
  constructor
  · intro h
    rw [hred]
    exact duData_gidx cb st dkvs h
  · intro key vkvs nkvs iv hdk hkey hstk hns hidx hnc
    subst hdk
    rw [hred]
    have hpr : pricesPart [(key, JVal.obj vkvs)] = ([], false) := by
      rw [pricesPart, if_neg]
      rw [dmem, startsST_ne_prices hkey]
      simp [dmem]
    obtain ⟨hg, hf⟩ := studyStep_sets_gidx
      { st with ohlc := st.ohlc ++ ([] : List JVal) } ⟨[], [], []⟩ key vkvs nkvs iv
      hstk hns hidx hnc
    rw [duData, hpr]
    dsimp only
    split
    · next h => exact absurd h (by simp)
    · rw [studiesLoop]
      dsimp only [asObj]
      rw [if_pos hkey]
      split
      · next h => rw [hf] at h; exact absurd h (by simp)
      · rw [studiesLoop]
        dsimp only
        split
        · next h => exact absurd h (by simp)
        · split
          · split
            · exact hg
            · exact hg
          · exact hg

/-- Witness for C3: a `"nochange"` update leaves the index array of the
sample state untouched, a real array replaces it. -/
theorem indexes_nochange_preserved_witness :
    ((on_message true sampleState (.obj [("m", JVal.str "du"),
        ("p", JVal.arr [JVal.null, JVal.obj [("st1", JVal.obj [("ns",
          JVal.obj [("indexes", JVal.str "nochange")])])]])])).1.graphics_indexes =
      sampleState.graphics_indexes) ∧
    ((on_message true sampleState (.obj [("m", JVal.str "du"),
        ("p", JVal.arr [JVal.null, JVal.obj [("st1", JVal.obj [("ns",
          JVal.obj [("indexes", JVal.arr [JVal.num 5])])])]])])).1.graphics_indexes =
      JVal.arr [JVal.num 5]) :=
  ⟨(indexes_nochange_preserved true sampleState
      [("m", JVal.str "du"),
       ("p", JVal.arr [JVal.null, JVal.obj [("st1", JVal.obj [("ns",
         JVal.obj [("indexes", JVal.str "nochange")])])]])]
      [JVal.null, JVal.obj [("st1", JVal.obj [("ns",
        JVal.obj [("indexes", JVal.str "nochange")])])]]
      [("st1", JVal.obj [("ns", JVal.obj [("indexes", JVal.str "nochange")])])]
      (Or.inr rfl) rfl rfl).1
    (by
      intro key vkvs hmem nkvs hns
      simp only [List.mem_singleton, Prod.mk.injEq] at hmem
      obtain ⟨h1, h2⟩ := hmem
      subst h1
      injection h2 with h2
      subst h2
      simp only [dget, seq] at hns
      simp at hns
      subst hns
      exact Or.inr rfl),
   (indexes_nochange_preserved true sampleState
      [("m", JVal.str "du"),
       ("p", JVal.arr [JVal.null, JVal.obj [("st1", JVal.obj [("ns",
         JVal.obj [("indexes", JVal.arr [JVal.num 5])])])]])]
      [JVal.null, JVal.obj [("st1", JVal.obj [("ns",
        JVal.obj [("indexes", JVal.arr [JVal.num 5])])])]]
      [("st1", JVal.obj [("ns", JVal.obj [("indexes", JVal.arr [JVal.num 5])])])]
      (Or.inr rfl) rfl rfl).2
    "st1" [("ns", JVal.obj [("indexes", JVal.arr [JVal.num 5])])]
    [("indexes", JVal.arr [JVal.num 5])] (JVal.arr [JVal.num 5])
    rfl rfl rfl rfl rfl rfl⟩

theorem tryGraphics_consistent (st : ExtState) (ex : Extracted) (key : String)
    (gc : JVal) (hex : ex.graphics = []) :
    (tryGraphics st ex key gc).2.graphics = [] ∨
    ∃ idx g, (tryGraphics st ex key gc).1.graphics_indexes = .arr idx ∧
      (tryGraphics st ex key gc).2.graphics = [(key, g)] ∧
      parse_graphic_data
        ((dget seq (tryGraphics st ex key gc).1.graphics_raw key).getD []) idx =
        .ok g := by
  cases gc <;> try (left; exact hex)
  next gckvs =>
    delta tryGraphics
    dsimp only
    split
    case isTrue =>
      split
      · left; exact hex
      · split
        · left; exact hex
        · split
          · next idx heq =>
            split
            · next g hpar =>
              right
              refine ⟨idx, g, heq, ?_, hpar⟩
              show dset seq ex.graphics key g = [(key, g)]
              rw [hex]
              rfl
            · left; exact hex
          · left; exact hex
    case isFalse =>
      split
      · left; exact hex
      · split
        · left; exact hex
        · split
          · next idx heq =>
            split
            · next g hpar =>
              right
              refine ⟨idx, g, heq, ?_, hpar⟩
              show dset seq ex.graphics key g = [(key, g)]
              rw [hex]
              rfl
            · left; exact hex
          · left; exact hex

theorem tryNsD_consistent (st : ExtState) (ex : Extracted) (key : String)
    (dv : JVal) (hex : ex.graphics = []) :
    (tryNsD st ex key dv).2.graphics = [] ∨
    ∃ idx g, (tryNsD st ex key dv).1.graphics_indexes = .arr idx ∧
      (tryNsD st ex key dv).2.graphics = [(key, g)] ∧
      parse_graphic_data
        ((dget seq (tryNsD st ex key dv).1.graphics_raw key).getD []) idx =
        .ok g := by
  cases dv <;> try (left; exact hex)
  next s =>
    delta tryNsD
    dsimp only
    split
    · split
      · split
        · split
          · exact tryGraphics_consistent _ _ _ _ hex
          · left; exact hex
        · left; exact hex
      · left; exact hex
    · left; exact hex

theorem studyStRows_fields (st : ExtState) (ex : Extracted) (key : String)
    (vkvs : List (String × JVal)) :
    (studyStRows st ex key vkvs).1.graphics_raw = st.graphics_raw ∧
    (studyStRows st ex key vkvs).1.graphics_indexes = st.graphics_indexes ∧
    (studyStRows st ex key vkvs).2.1.graphics = ex.graphics ∧
    (studyStRows st ex key vkvs).1.ohlc = st.ohlc ∧
    (studyStRows st ex key vkvs).2.1.ohlc = ex.ohlc := by
  rw [studyStRows]
  split
  · split
    · next =>
      dsimp only
      split <;> exact ⟨rfl, rfl, rfl, rfl, rfl⟩
    · exact ⟨rfl, rfl, rfl, rfl, rfl⟩
  · exact ⟨rfl, rfl, rfl, rfl, rfl⟩

theorem studyStep_consistent (st : ExtState) (ex : Extracted) (key : String)
    (vkvs : List (String × JVal)) (hex : ex.graphics = []) :
    (studyStep st ex key vkvs).2.1.graphics = [] ∨
    ∃ idx g, (studyStep st ex key vkvs).1.graphics_indexes = .arr idx ∧
      (studyStep st ex key vkvs).2.1.graphics = [(key, g)] ∧
      parse_graphic_data
        ((dget seq (studyStep st ex key vkvs).1.graphics_raw key).getD []) idx =
        .ok g := by
  have hexr : (studyStRows st ex key vkvs).2.1.graphics = [] :=
    (studyStRows_fields st ex key vkvs).2.2.1.trans hex
  rw [studyStep]
  dsimp only
  split
  · left; exact hexr
  · split
    · next nkvs hns =>
      split
      · next dv hd =>
        split
        · exact tryNsD_consistent _ _ _ _ hexr
        · left; exact hexr
      · left; exact hexr
    · left; exact hexr

theorem studiesLoop_single (st : ExtState) (ex : Extracted) (key : String)
    (val : JVal) (hex : ex.graphics = []) :
    (studiesLoop st ex [(key, val)]).2.1.graphics = [] ∨
    ∃ idx g,
      (studiesLoop st ex [(key, val)]).1.graphics_indexes = .arr idx ∧
      (studiesLoop st ex [(key, val)]).2.1.graphics = [(key, g)] ∧
      parse_graphic_data
        ((dget seq (studiesLoop st ex [(key, val)]).1.graphics_raw key).getD [])
        idx = .ok g := by
  rw [studiesLoop]
  cases hv : asObj val with
  | none => left; exact hex
  | some vkvs =>
    dsimp only
    split
    · split
      · exact studyStep_consistent st ex key vkvs hex
      · rw [studiesLoop]
        exact studyStep_consistent st ex key vkvs hex
    · left; exact hex

theorem tryGraphics_ohlc (st : ExtState) (ex : Extracted) (key : String) (gc : JVal) :
    (tryGraphics st ex key gc).1.ohlc = st.ohlc ∧
    (tryGraphics st ex key gc).2.ohlc = ex.ohlc := by
  cases gc <;> try exact ⟨rfl, rfl⟩
  next gckvs =>
    delta tryGraphics
    dsimp only
    repeat' split
    all_goals exact ⟨rfl, rfl⟩

theorem tryNsD_ohlc (st : ExtState) (ex : Extracted) (key : String) (dv : JVal) :
    (tryNsD st ex key dv).1.ohlc = st.ohlc ∧
    (tryNsD st ex key dv).2.ohlc = ex.ohlc := by
  cases dv <;> try exact ⟨rfl, rfl⟩
  next s =>
    delta tryNsD
    dsimp only
    repeat' split
    all_goals first
    | exact ⟨rfl, rfl⟩
    | exact tryGraphics_ohlc _ _ _ _

theorem nsIndexes_ohlc (st : ExtState) (nkvs : List (String × JVal)) :
    (nsIndexes st nkvs).ohlc = st.ohlc := by
  rw [nsIndexes]
  split
  · split <;> rfl
  · rfl

theorem studyStep_ohlc (st : ExtState) (ex : Extracted) (key : String)
    (vkvs : List (String × JVal)) :
    (studyStep st ex key vkvs).1.ohlc = st.ohlc ∧
    (studyStep st ex key vkvs).2.1.ohlc = ex.ohlc := by
  have hr := studyStRows_fields st ex key vkvs
  rw [studyStep]
  dsimp only
  split
  · exact ⟨hr.2.2.2.1, hr.2.2.2.2⟩
  · split
    · next nkvs hns =>
      split
      · next dv hd =>
        split
        · exact ⟨((tryNsD_ohlc _ _ _ _).1.trans (nsIndexes_ohlc _ _)).trans hr.2.2.2.1,
            (tryNsD_ohlc _ _ _ _).2.trans hr.2.2.2.2⟩
        · exact ⟨(nsIndexes_ohlc _ _).trans hr.2.2.2.1, hr.2.2.2.2⟩
      · exact ⟨(nsIndexes_ohlc _ _).trans hr.2.2.2.1, hr.2.2.2.2⟩
    · exact ⟨hr.2.2.2.1, hr.2.2.2.2⟩

theorem studiesLoop_single_ohlc (st : ExtState) (ex : Extracted) (key : String)
    (val : JVal) :
    (studiesLoop st ex [(key, val)]).1.ohlc = st.ohlc ∧
    (studiesLoop st ex [(key, val)]).2.1.ohlc = ex.ohlc := by
  rw [studiesLoop]
  cases hv : asObj val with
  | none => exact ⟨rfl, rfl⟩
  | some vkvs =>
    dsimp only
    split
    · split
      · exact studyStep_ohlc st ex key vkvs
      · rw [studiesLoop]
        exact studyStep_ohlc st ex key vkvs
    · exact ⟨rfl, rfl⟩

theorem duData_event (cb : Bool) (st : ExtState) (dkvs : List (String × JVal))
    (ev : Extracted) (hev : (duData cb st dkvs).2.1 = some ev) :
    ev.graphics = (studiesLoop { st with ohlc := st.ohlc ++ (pricesPart dkvs).1 }
      ⟨(pricesPart dkvs).1, [], []⟩ dkvs).2.1.graphics ∧
    ev.ohlc = (studiesLoop { st with ohlc := st.ohlc ++ (pricesPart dkvs).1 }
      ⟨(pricesPart dkvs).1, [], []⟩ dkvs).2.1.ohlc ∧
    (duData cb st dkvs).1 =
      (studiesLoop { st with ohlc := st.ohlc ++ (pricesPart dkvs).1 }
        ⟨(pricesPart dkvs).1, [], []⟩ dkvs).1 := by
  rw [duData] at hev ⊢
  dsimp only at hev ⊢
  by_cases h1 : (pricesPart dkvs).2 = true
  · rw [if_pos h1] at hev
    cases hev
  · rw [if_neg h1] at hev ⊢
    by_cases h2 : (studiesLoop { st with ohlc := st.ohlc ++ (pricesPart dkvs).1 }
        ⟨(pricesPart dkvs).1, [], []⟩ dkvs).2.2 = true
    · rw [if_pos h2] at hev
      cases hev
    · rw [if_neg h2] at hev ⊢
      by_cases h3 : (cb && (!(studiesLoop { st with ohlc := st.ohlc ++ (pricesPart dkvs).1 }
          ⟨(pricesPart dkvs).1, [], []⟩ dkvs).2.1.ohlc.isEmpty ||
          !(studiesLoop { st with ohlc := st.ohlc ++ (pricesPart dkvs).1 }
          ⟨(pricesPart dkvs).1, [], []⟩ dkvs).2.1.indicators.isEmpty ||
          !(studiesLoop { st with ohlc := st.ohlc ++ (pricesPart dkvs).1 }
          ⟨(pricesPart dkvs).1, [], []⟩ dkvs).2.1.graphics.isEmpty)) = true
      · rw [if_pos h3] at hev ⊢
        cases hmi : mapIndicators
            (studiesLoop { st with ohlc := st.ohlc ++ (pricesPart dkvs).1 }
              ⟨(pricesPart dkvs).1, [], []⟩ dkvs).1
            (studiesLoop { st with ohlc := st.ohlc ++ (pricesPart dkvs).1 }
              ⟨(pricesPart dkvs).1, [], []⟩ dkvs).2.1.indicators with
        | ok ind2 =>
          rw [hmi] at hev
          dsimp only at hev
          injection hev with hev
          subst hev
          exact ⟨rfl, rfl, rfl⟩
        | error e =>
          rw [hmi] at hev
          dsimp only at hev
          cases hev
      · rw [if_neg h3] at hev
        cases hev

/-- C4 (amended): for a `timescale_update`/`du` message with a single study
entry, every mutation is applied before the event is handed to the
dispatcher, and the event is consistent with the post-state: the dispatched
OHLC rows are exactly what was appended to the store, and every graphics
entry of the event equals `parse_graphic_data` of the post-state's raw
store against the post-state's index array.  (With several studies in one
message, an earlier study's dispatched graphics are resolved against the
index array as it stood mid-message — see the counterexample.) -/
theorem du_single_study_event_consistent (cb : Bool) (st : ExtState)
    (mkvs : List (String × JVal)) (l : List JVal) (key : String) (val : JVal)
    (ev : Extracted)
    (hm : dget seq mkvs "m" = some (.str "timescale_update") ∨
      dget seq mkvs "m" = some (.str "du"))
    (hp : dget seq mkvs "p" = some (.arr l))
    (hdata : l.get? 1 = some (.obj [(key, val)]))
    (hev : (on_message cb st (.obj mkvs)).2.1 = some ev) :
    (on_message cb st (.obj mkvs)).1.ohlc = st.ohlc ++ ev.ohlc ∧
    ∀ k g, (k, g) ∈ ev.graphics →
      ∃ idx, (on_message cb st (.obj mkvs)).1.graphics_indexes = .arr idx ∧
        parse_graphic_data
          ((dget seq (on_message cb st (.obj mkvs)).1.graphics_raw k).getD []) idx =
          .ok g := by
  have hred : on_message cb st (.obj mkvs) = duData cb st [(key, val)] := by
    rcases hm with hm | hm <;>
      rw [on_message, hm, hp] <;>
      simp only [Option.getD_some] <;>
      rw [if_pos (by simp [pyEq])] <;>
      rw [hdata]
  rw [hred] at hev ⊢
  obtain ⟨hg, ho, hst⟩ := duData_event cb st [(key, val)] ev hev
  rw [hst]
  constructor
  · rw [(studiesLoop_single_ohlc _ _ _ _).1, ho, (studiesLoop_single_ohlc _ _ _ _).2]
  · intro k g hkg
    rw [hg] at hkg
    rcases studiesLoop_single
        { st with ohlc := st.ohlc ++ (pricesPart [(key, val)]).1 }
        ⟨(pricesPart [(key, val)]).1, [], []⟩ key val rfl with
      hnone | ⟨idx, g0, hgi, hgr, hpar⟩
    · rw [hnone] at hkg
      simp at hkg
    · rw [hgr] at hkg
      simp only [List.mem_singleton, Prod.mk.injEq] at hkg
      obtain ⟨hk, hg2⟩ := hkg
      subst hk
      subst hg2
      exact ⟨idx, hgi, hpar⟩

/-- Witness for C4's corrected statement at a single-study update. -/
theorem du_single_study_event_consistent_witness :
    (on_message true sampleState (.obj [("m", JVal.str "du"),
        ("p", JVal.arr [JVal.null, JVal.obj [("st1", JVal.obj [("st",
          JVal.arr [JVal.obj [("v", JVal.num 5)]])])]])])).1.ohlc =
      sampleState.ohlc ++
        (⟨[], [("st1", IndOut.raw [JVal.num 5])], []⟩ : Extracted).ohlc ∧
    ∀ k g, (k, g) ∈ (⟨[], [("st1", IndOut.raw [JVal.num 5])], []⟩ : Extracted).graphics →
      ∃ idx, (on_message true sampleState (.obj [("m", JVal.str "du"),
          ("p", JVal.arr [JVal.null, JVal.obj [("st1", JVal.obj [("st",
            JVal.arr [JVal.obj [("v", JVal.num 5)]])])]])])).1.graphics_indexes =
          .arr idx ∧
        parse_graphic_data
          ((dget seq (on_message true sampleState (.obj [("m", JVal.str "du"),
            ("p", JVal.arr [JVal.null, JVal.obj [("st1", JVal.obj [("st",
              JVal.arr [JVal.obj [("v", JVal.num 5)]])])]])])).1.graphics_raw k).getD [])
          idx = .ok g :=
  du_single_study_event_consistent true sampleState
    [("m", JVal.str "du"),
     ("p", JVal.arr [JVal.null, JVal.obj [("st1", JVal.obj [("st",
       JVal.arr [JVal.obj [("v", JVal.num 5)]])])]])]
    [JVal.null, JVal.obj [("st1", JVal.obj [("st",
      JVal.arr [JVal.obj [("v", JVal.num 5)]])])]]
    "st1" (JVal.obj [("st", JVal.arr [JVal.obj [("v", JVal.num 5)]])])
    ⟨[], [("st1", IndOut.raw [JVal.num 5])], []⟩
    (Or.inr rfl) rfl rfl rfl

/-- The pre-state of the C4 counterexample: one stored label whose `x` is
the position `0`, and a one-element index array. -/
def cexState : ExtState :=
  { running := true, ohlc := [], indicator_data := [],
    graphics_raw := [("st1", [(JVal.str "dwglabels",
      [(JVal.num 0, JVal.obj [("id", JVal.num 0), ("x", JVal.num 0)])])])],
    graphics_indexes := JVal.arr [JVal.num 111],
    error_occurred := false, loaded_indicators := [] }

/-- The two-study message of the C4 counterexample: `st1` re-dispatches its
graphics, `st2` then replaces the index array. -/
def cexMsg : JVal :=
  .obj [("m", JVal.str "du"),
        ("p", JVal.arr [JVal.null, JVal.obj
          [("st1", JVal.obj [("ns", JVal.obj [("d",
             JVal.str "\x7b\"graphicsCmds\":\x7b\"a\":1\x7d\x7d")])]),
           ("st2", JVal.obj [("ns", JVal.obj [("indexes",
             JVal.arr [JVal.num 222])])])]])]

/-- The label row of the dispatched event: resolved against the OLD index
array, so `x = 111`. -/
def cexRow : List (String × JVal) :=
  [("id", JVal.num 0), ("x", JVal.num 111), ("y", JVal.null),
   ("yLoc", JVal.null), ("text", JVal.null), ("style", JVal.null),
   ("color", JVal.null), ("textColor", JVal.null), ("size", JVal.null),
   ("textAlign", JVal.null), ("toolTip", JVal.null)]

set_option maxRecDepth 8192 in
/-- C4 as literally stated is false for multi-study messages: `st1`'s
dispatched graphics are resolved against the index array `[111]` as it
stood when `st1` was processed, while `st2` later replaces the array with
`[222]`; the dispatcher therefore sees a label with `x = 111` that does not
match a resolution against the message's post-state. -/
theorem du_single_study_event_consistent_counterexample :
    ∃ ev, (on_message true cexState cexMsg).2.1 = some ev ∧
      ∃ k g, (k, g) ∈ ev.graphics ∧
        ∀ idx, (on_message true cexState cexMsg).1.graphics_indexes = JVal.arr idx →
          parse_graphic_data
            ((dget seq (on_message true cexState cexMsg).1.graphics_raw k).getD [])
            idx ≠ Except.ok g := by
  have hload : loads "\x7b\"graphicsCmds\":\x7b\"a\":1\x7d\x7d" =
      some (.obj [("graphicsCmds", JVal.obj [("a", JVal.num 1)])]) := by
    rw [loads, show ("\x7b\"graphicsCmds\":\x7b\"a\":1\x7d\x7d" : String).data =
      ['\x7b', '"', 'g', 'r', 'a', 'p', 'h', 'i', 'c', 's', 'C', 'm', 'd', 's', '"',
       ':', '\x7b', '"', 'a', '"', ':', '1', '\x7d', '\x7d'] from rfl]
    simp +decide [loadsChars, pVal, pValGo, pArrGo, pObjGo, pElems, pElemsGo, pMems,
      pMemsRest, pMemsKV, pKeyword, pKeyword4, pStrBody, pEsc, pEscU, pLowSur, pHex4,
      pNum, numStop, skipWs, isWs, isDig, dictify, dset, seq, charVal, digitsVal,
      takeDigits, hexVal]
  have hev : (on_message true cexState cexMsg).2.1 =
      some ⟨[], [], [("st1", ⟨[cexRow], [], []⟩)]⟩ := by
    simp +decide [on_message, duData, pricesPart, studiesLoop, studyStep, studyStRows,
      nsIndexes, tryNsD, hload, tryGraphics, tryErase, tryCreate, eraseLoop,
      createLoop, itemLoop, groupLoop, parse_graphic_data, labelRow, lineRow, boxRow,
      mapExcept, pyget, resolveIdx, toIntQ, trGet, GRAPHIC_TRANSLATOR, dget, dset,
      dmem, dpop, seq, pyEq, hashable, truthy, startsST, asObj, mapIndicators,
      cexState, cexMsg, cexRow, Except.bind, bind, stVals, pricesLoop]
  have hgi : (on_message true cexState cexMsg).1.graphics_indexes =
      JVal.arr [JVal.num 222] := by
    simp +decide [on_message, duData, pricesPart, studiesLoop, studyStep, studyStRows,
      nsIndexes, tryNsD, hload, tryGraphics, tryErase, tryCreate, eraseLoop,
      createLoop, itemLoop, groupLoop, parse_graphic_data, labelRow, lineRow, boxRow,
      mapExcept, pyget, resolveIdx, toIntQ, trGet, GRAPHIC_TRANSLATOR, dget, dset,
      dmem, dpop, seq, pyEq, hashable, truthy, startsST, asObj, mapIndicators,
      cexState, cexMsg, cexRow, Except.bind, bind, stVals, pricesLoop]
  have hgr : (on_message true cexState cexMsg).1.graphics_raw =
      cexState.graphics_raw := by
    simp +decide [on_message, duData, pricesPart, studiesLoop, studyStep, studyStRows,
      nsIndexes, tryNsD, hload, tryGraphics, tryErase, tryCreate, eraseLoop,
      createLoop, itemLoop, groupLoop, parse_graphic_data, labelRow, lineRow, boxRow,
      mapExcept, pyget, resolveIdx, toIntQ, trGet, GRAPHIC_TRANSLATOR, dget, dset,
      dmem, dpop, seq, pyEq, hashable, truthy, startsST, asObj, mapIndicators,
      cexState, cexMsg, cexRow, Except.bind, bind, stVals, pricesLoop]
  refine ⟨⟨[], [], [("st1", ⟨[cexRow], [], []⟩)]⟩, hev, "st1", ⟨[cexRow], [], []⟩,
    by simp, ?_⟩
  intro idx hidx
  rw [hgi] at hidx
  injection hidx with hidx
  subst hidx
  rw [hgr]
  rw [show parse_graphic_data
      ((dget seq cexState.graphics_raw "st1").getD []) [JVal.num 222] =
      .ok ⟨[[("id", JVal.num 0), ("x", JVal.num 222), ("y", JVal.null),
        ("yLoc", JVal.null), ("text", JVal.null), ("style", JVal.null),
        ("color", JVal.null), ("textColor", JVal.null), ("size", JVal.null),
        ("textAlign", JVal.null), ("toolTip", JVal.null)]], [], []⟩ from rfl]
  simp [cexRow]

end TV
